import Mathlib

/-!
Verification of the channel-wise pruning notebook
(`blog/posts/2024-08-15-pruning-pt2/index.ipynb`).

The notebook manipulates `nn.Conv2d` layers inside `model.features`.
A convolution layer holds a weight tensor of shape
`(out_channels, in_channels, k_h, k_w)` and an optional bias vector of
length `out_channels`, together with the constructor attributes
`in_channels` / `out_channels`, which PyTorch does not update when the
weight parameter is reassigned.  Tensors are embedded as nested lists of
rationals (exact stand-ins for the floating point entries); Python's
`int(round (x))` is embedded as round-half-to-even on `ℚ`, and Python's
slice `xs[:n]` (which clamps, and counts from the end for negative `n`)
is embedded explicitly.
-/

/-- Python's `round` on a rational: round half to even (banker's rounding). -/
def pyRound (q : ℚ) : ℤ :=
  if q - ⌊q⌋ < 1/2 then ⌊q⌋
  else if (1:ℚ)/2 < q - ⌊q⌋ then ⌊q⌋ + 1
  else if 2 ∣ ⌊q⌋ then ⌊q⌋ else ⌊q⌋ + 1

/-- Embeds `get_num_channels_to_keep(channels, prune_ratio) =
int(round((1-prune_ratio)*channels))` from the notebook. -/
def get_num_channels_to_keep (channels : ℕ) (r : ℚ) : ℤ :=
  pyRound ((1 - r) * channels)

/-- Python's slice `xs[:n]`: for `0 ≤ n` the first `n` elements (clamped at
the length), for `n < 0` all but the last `|n|` elements (clamped at 0). -/
def pySlice (xs : List α) (n : ℤ) : List α :=
  if 0 ≤ n then xs.take n.toNat else xs.take ((xs.length : ℤ) + n).toNat

/-- Embeds `torch.index_select(xs, 0, idx)`: element `j` of the result is
`xs[idx[j]]`.  Out-of-range indices (never produced by `argsort`) are
dropped. -/
def indexSelect (xs : List α) (idx : List ℕ) : List α :=
  idx.filterMap fun i => xs[i]?

/-- Scalar entries of a kernel; a kernel is a `k_h × k_w` matrix. -/
abbrev Kernel := List (List ℚ)

/-- Weight tensor of a convolution: `out_channels × in_channels` kernels. -/
abbrev Weight := List (List Kernel)

/-- Embeds `nn.Conv2d`: the weight parameter, the optional bias parameter,
and the constructor attributes `in_channels` / `out_channels` (PyTorch keeps
those attributes unchanged when `conv.weight` is reassigned). -/
structure Conv2d where
  in_channels : ℕ
  out_channels : ℕ
  weight : Weight
  bias : Option (List ℚ)
deriving DecidableEq

/-- A module of `model.features`: the notebook's VGG backbone interleaves
`Conv2d` with parameter-free modules (`ReLU`, `MaxPool2d`). -/
inductive Layer where
  | conv2d (c : Conv2d) : Layer
  | relu : Layer
  | maxpool2d : Layer
deriving DecidableEq

/-- The part of the model that `channel_prune` / `apply_channel_sorting`
read and rewrite: the ordered `features` module list. -/
structure Model where
  features : List Layer
deriving DecidableEq

/-- Embeds `[m for m in model.features if isinstance(m, nn.Conv2d)]`. -/
def convLayers (ls : List Layer) : List Conv2d :=
  ls.filterMap fun l => match l with
    | .conv2d c => some c
    | _ => none

/-- Writes a list of convolution layers back into a feature list, replacing
the `Conv2d` entries in order (the in-place mutation of the deep copy's
modules in the notebook). -/
def setConvs : List Layer → List Conv2d → List Layer
  | [], _ => []
  | .conv2d _ :: ls, c :: cs => .conv2d c :: setConvs ls cs
  | .conv2d c :: ls, [] => .conv2d c :: setConvs ls []
  | l :: ls, cs => l :: setConvs ls cs

/-- Embeds `prev_conv.weight = Parameter(prev_conv.weight[:n_keep, ...])`
together with the bias adjustment: truncation of the output-channel axis.
The attributes are untouched, exactly as in PyTorch. -/
def pruneOutConv (c : Conv2d) (nKeep : ℤ) : Conv2d :=
  { c with weight := pySlice c.weight nKeep,
           bias := c.bias.map fun b => pySlice b nKeep }

/-- Embeds `next_conv.weight = Parameter(next_conv.weight[:, :n_keep, ...])`:
truncation of the input-channel axis. -/
def pruneInConv (c : Conv2d) (nKeep : ℤ) : Conv2d :=
  { c with weight := c.weight.map fun row => pySlice row nKeep }

/-- The pruning loop of `channel_prune`: for each ratio, read
`prev_conv.out_channels` (the attribute), compute `n_keep`, truncate the
producer's output channels and the consumer's input channels; the consumer
then becomes the producer of the next iteration. -/
def pruneConvs : List Conv2d → List ℚ → List Conv2d
  | c1 :: c2 :: rest, r :: rs =>
    let nKeep := get_num_channels_to_keep c1.out_channels r
    pruneOutConv c1 nKeep :: pruneConvs (pruneInConv c2 nKeep :: rest) rs
  | cs, _ => cs

/-- The `prune_ratio` argument of `channel_prune`: a single float or a
per-pair list (the `isinstance` assert makes any other type impossible). -/
inductive PruneArg where
  | uniform (r : ℚ) : PruneArg
  | perLayer (rs : List ℚ) : PruneArg

/-- Embeds `channel_prune`.  A uniform float is replicated
`n_conv - 1` times; a list must have length `n_conv - 1` or the assert
fires (an `Except.error`) before the deep copy is made and before any
tensor is touched. -/
def channel_prune (model : Model) (arg : PruneArg) : Except String Model :=
  let convs := convLayers model.features
  let nConv := convs.length
  match arg with
  | .uniform r =>
    .ok ⟨setConvs model.features (pruneConvs convs (List.replicate (nConv - 1) r))⟩
  | .perLayer rs =>
    if rs.length = nConv - 1 then
      .ok ⟨setConvs model.features (pruneConvs convs rs)⟩
    else
      .error "prune_ratio list length must be one less than the number of Conv2d layers."

/-- Sum of squared entries of one input-channel slice `weight[:, i_c]`
(shape `(c_out, k, k)`): the square of its Frobenius norm, `torch.norm`
squared. -/
def sqNorm3 (t : List Kernel) : ℚ :=
  (t.map fun m => (m.map fun row => (row.map fun x => x * x).sum).sum).sum

/-- The slice `weight[:, i_c]` of shape `(c_out, k, k)`. -/
def channelSlice (w : Weight) (i : ℕ) : List Kernel :=
  w.filterMap fun orow => orow[i]?

/-- Squared per-input-channel importances, indexed like the input-channel
axis; `weight.shape[1]` is the common row length. -/
def importanceSq (w : Weight) : List ℚ :=
  (List.range (w.headD []).length).map fun i => sqNorm3 (channelSlice w i)

/-- Embeds `get_input_channel_importance`: for each input channel `i_c` of
`weight`, the Frobenius norm `torch.norm(weight[:, i_c])`, collected in
channel order. -/
noncomputable def get_input_channel_importance (w : Weight) : List ℝ :=
  (List.range (w.headD []).length).map fun i =>
    Real.sqrt ((sqNorm3 (channelSlice w i) : ℚ) : ℝ)

/-- Embeds `torch.argsort(values, descending=True)`: the indices of the
entries in order of decreasing value.  The Frobenius norm is a strictly
monotone function of the squared norm, so sorting by `importanceSq` is
sorting by `get_input_channel_importance` (proved below). -/
def argsortDesc (xs : List ℚ) : List ℕ :=
  (xs.enum.mergeSort fun a b => decide (b.2 ≤ a.2)).map Prod.fst

/-- Embeds the two `index_select` calls on the producer: reorder the
output-channel axis of the weight and the bias by `idx`. -/
def sortOutConv (c : Conv2d) (idx : List ℕ) : Conv2d :=
  { c with weight := indexSelect c.weight idx,
           bias := c.bias.map fun b => indexSelect b idx }

/-- Embeds `index_select(next_conv.weight, 1, sort_idx)`: reorder the
input-channel axis of the weight by `idx`. -/
def sortInConv (c : Conv2d) (idx : List ℕ) : Conv2d :=
  { c with weight := c.weight.map fun row => indexSelect row idx }

/-- The loop of `apply_channel_sorting`: for each adjacent pair, compute
the consumer's input-channel importance, argsort it descending, and apply
that one permutation to the producer's output channels (weight and bias)
and the consumer's input channels. -/
def sortConvs : List Conv2d → List Conv2d
  | c1 :: c2 :: rest =>
    let idx := argsortDesc (importanceSq c2.weight)
    sortOutConv c1 idx :: sortConvs (sortInConv c2 idx :: rest)
  | cs => cs
termination_by cs => cs.length
decreasing_by simp

/-- Embeds `apply_channel_sorting`: deep copy, then sort each adjacent
conv pair's shared channel axis. -/
def apply_channel_sorting (model : Model) : Model :=
  ⟨setConvs model.features (sortConvs (convLayers model.features))⟩

/-- Number of scalar entries of a weight tensor. -/
def weightParams (w : Weight) : ℕ :=
  (w.map fun row => (row.map fun k => (k.map List.length).sum).sum).sum

/-- Number of parameters held by one layer (`param.numel()` summed). -/
def layerParams : Layer → ℕ
  | .conv2d c => weightParams c.weight + (c.bias.map List.length).getD 0
  | _ => 0

/-- Embeds `get_num_parameters` restricted to the `features` backbone (the
only part the pruning functions modify). -/
def numParams (m : Model) : ℕ :=
  (m.features.map layerParams).sum

/-- Shape well-formedness of one convolution layer, as PyTorch constructs
it: the weight has `out_channels` rows of `in_channels` kernels each, and
the bias (when present) has length `out_channels`. -/
def Conv2dWf (c : Conv2d) : Prop :=
  c.weight.length = c.out_channels ∧
  (∀ row ∈ c.weight, row.length = c.in_channels) ∧
  (∀ b, c.bias = some b → b.length = c.out_channels)

instance : DecidablePred Conv2dWf := fun c =>
  inferInstanceAs (Decidable (c.weight.length = c.out_channels ∧
    (∀ row ∈ c.weight, row.length = c.in_channels) ∧
    (∀ b, c.bias = some b → b.length = c.out_channels)))

/-- The forward-path shape invariant on the backbone: every conv is
well-formed and each consumer's `in_channels` equals its producer's
`out_channels`. -/
def ChainWf : List Conv2d → Prop
  | [] => True
  | [c] => Conv2dWf c
  | c1 :: c2 :: rest => Conv2dWf c1 ∧ c2.in_channels = c1.out_channels ∧ ChainWf (c2 :: rest)


instance : Inhabited Conv2d := ⟨⟨0, 0, [], none⟩⟩

/-- Head modification: the in-place update of the first conv of the running
tail in both loops. -/
def applyHead (f : α → α) : List α → List α
  | [] => []
  | x :: xs => f x :: xs

/-- Output-side well-formedness of one conv: the weight's first axis and
the bias length agree with the `out_channels` attribute. -/
def OutWf (c : Conv2d) : Prop :=
  c.weight.length = c.out_channels ∧
  (∀ b, c.bias = some b → b.length = c.out_channels)

/-- The shape facts the pruning loop actually relies on, stated against the
producer's `out_channels` attribute (this is what survives one loop step:
an input-pruned consumer keeps its attribute and its output axis intact). -/
def PruneWf : List Conv2d → Prop
  | [] => True
  | [c] => OutWf c
  | c1 :: c2 :: rest =>
    OutWf c1 ∧ (∀ row ∈ c2.weight, row.length = c1.out_channels) ∧ PruneWf (c2 :: rest)

/-- Upper-bound shape facts: what holds of a model that was built well-formed
and possibly already pruned (pruning only shortens axes and never updates
the attributes). -/
def SlackWf : List Conv2d → Prop
  | [] => True
  | [c] => c.weight.length ≤ c.out_channels ∧ (∀ b, c.bias = some b → b.length ≤ c.out_channels)
  | c1 :: c2 :: rest =>
    (c1.weight.length ≤ c1.out_channels ∧
      (∀ b, c1.bias = some b → b.length ≤ c1.out_channels)) ∧
    (∀ row ∈ c2.weight, row.length ≤ c1.out_channels) ∧ SlackWf (c2 :: rest)

/-- Rectangularity of a weight tensor: every output row has as many input
channels as the first row (`weight.shape[1]`). -/
def RectW (w : Weight) : Prop :=
  ∀ row ∈ w, row.length = (w.headD []).length

/-- The kept channel list is a top-`|kept|` subset of `scores`: it consists
of distinct in-range indices, and every kept index scores at least as high
as every discarded one. -/
def IsTopK (scores : List ℝ) (kept : List ℕ) : Prop :=
  kept.Nodup ∧ (∀ i ∈ kept, i < scores.length) ∧
  ∀ i ∈ kept, ∀ j < scores.length, j ∉ kept → scores.getD j 0 ≤ scores.getD i 0

/-- The permutation the sorting loop computes for the adjacent pair
`(j, j+1)`: descending argsort of the consumer's input-channel importance. -/
def pairIdx (cs : List Conv2d) (j : ℕ) : List ℕ :=
  argsortDesc (importanceSq (cs.getD (j + 1) default).weight)

/-- The keep count the pruning loop computes for the adjacent pair
`(j, j+1)`: from the producer's `out_channels` attribute and the pair's
ratio. -/
def pairKeep (cs : List Conv2d) (rs : List ℚ) (j : ℕ) : ℤ :=
  get_num_channels_to_keep (cs.getD j default).out_channels (rs.getD j 0)

/-- Scalar entries of a weight tensor, flattened in axis order. -/
def flatW (w : Weight) : List ℚ :=
  (w.map fun row => (row.map fun k => k.flatten).flatten).flatten

/-- A linear combination over input channels: what a consumer computes from
its per-channel kernels (abstracted to one scalar per channel) and the
producer's per-channel activations `a`. -/
def channelDot (row : List ℚ) (a : ℕ → ℚ) : ℚ :=
  ((List.range row.length).map fun i => row.getD i 0 * a i).sum

instance : DecidablePred OutWf := fun c =>
  inferInstanceAs (Decidable (c.weight.length = c.out_channels ∧
    (∀ b, c.bias = some b → b.length = c.out_channels)))

instance instDecPruneWf : (cs : List Conv2d) → Decidable (PruneWf cs)
  | [] => inferInstanceAs (Decidable True)
  | [c] => inferInstanceAs (Decidable (OutWf c))
  | c1 :: c2 :: rest =>
    have : Decidable (PruneWf (c2 :: rest)) := instDecPruneWf (c2 :: rest)
    inferInstanceAs (Decidable (OutWf c1 ∧
      (∀ row ∈ c2.weight, row.length = c1.out_channels) ∧ PruneWf (c2 :: rest)))

instance instDecSlackWf : (cs : List Conv2d) → Decidable (SlackWf cs)
  | [] => inferInstanceAs (Decidable True)
  | [c] => inferInstanceAs (Decidable (c.weight.length ≤ c.out_channels ∧
      (∀ b, c.bias = some b → b.length ≤ c.out_channels)))
  | c1 :: c2 :: rest =>
    have : Decidable (SlackWf (c2 :: rest)) := instDecSlackWf (c2 :: rest)
    inferInstanceAs (Decidable ((c1.weight.length ≤ c1.out_channels ∧
      (∀ b, c1.bias = some b → b.length ≤ c1.out_channels)) ∧
      (∀ row ∈ c2.weight, row.length ≤ c1.out_channels) ∧ SlackWf (c2 :: rest)))

instance instDecChainWf : (cs : List Conv2d) → Decidable (ChainWf cs)
  | [] => inferInstanceAs (Decidable True)
  | [c] => inferInstanceAs (Decidable (Conv2dWf c))
  | c1 :: c2 :: rest =>
    have : Decidable (ChainWf (c2 :: rest)) := instDecChainWf (c2 :: rest)
    inferInstanceAs (Decidable (Conv2dWf c1 ∧
      c2.in_channels = c1.out_channels ∧ ChainWf (c2 :: rest)))

instance : DecidablePred RectW := fun w =>
  inferInstanceAs (Decidable (∀ row ∈ w, row.length = (w.headD []).length))

/-- A small well-formed two-conv backbone used to instantiate the theorems:
producer with 4 output channels (1 input channel, 1×1 kernels, bias) feeding
a consumer with 4 input channels (1 output channel, no bias). -/
def exConvP : Conv2d := ⟨1, 4, [[[[1]]], [[[2]]], [[[3]]], [[[4]]]], some [1, 2, 3, 4]⟩

/-- Consumer of the small backbone. -/
def exConvC : Conv2d := ⟨4, 1, [[[[1]], [[2]], [[3]], [[4]]]], none⟩

/-- The small example model. -/
def exModel : Model := ⟨[.conv2d exConvP, .relu, .conv2d exConvC, .maxpool2d]⟩

/-- The value `channel_prune exModel (uniform 1/2)` produces: keep count 2,
physically truncated tensors, stale attributes. -/
def exPrunedHalf : Model :=
  ⟨[.conv2d ⟨1, 4, [[[[1]]], [[[2]]]], some [1, 2]⟩, .relu,
    .conv2d ⟨4, 1, [[[[1]], [[2]]]], none⟩, .maxpool2d]⟩

/-- The value `channel_prune exModel (uniform 1)` produces: keep count 0 and
empty (zero-channel) tensors. -/
def exPrunedOne : Model :=
  ⟨[.conv2d ⟨1, 4, [], some []⟩, .relu, .conv2d ⟨4, 1, [[]], none⟩, .maxpool2d]⟩

/-- A three-conv model (so the valid per-pair ratio-list length is 2). -/
def exModel3 : Model :=
  ⟨[.conv2d ⟨1, 1, [[[[0]]]], none⟩, .conv2d ⟨1, 1, [[[[0]]]], none⟩,
    .conv2d ⟨1, 1, [[[[0]]]], none⟩]⟩

/-- A 64-output-channel producer for the spec's keep-count scenario. -/
def exConv64P : Conv2d :=
  ⟨1, 64, List.replicate 64 [[[1]]], some (List.replicate 64 0)⟩

/-- The matching 64-input-channel consumer. -/
def exConv64C : Conv2d := ⟨64, 1, [List.replicate 64 [[1]]], none⟩

/-- Model for the `out_channels = 64, prune_ratio = 0.6` scenario. -/
def exModel64 : Model := ⟨[.conv2d exConv64P, .relu, .conv2d exConv64C]⟩

/-! ### Arithmetic lemmas about `pyRound` and `get_num_channels_to_keep` -/

theorem pyRound_intCast (n : ℤ) : pyRound (n : ℚ) = n := by
  simp [pyRound]

theorem pyRound_natCast (n : ℕ) : pyRound (n : ℚ) = n := by
  simpa using pyRound_intCast (n : ℤ)

theorem pyRound_nonneg {q : ℚ} (h : 0 ≤ q) : 0 ≤ pyRound q := by
  have hf : (0 : ℤ) ≤ ⌊q⌋ := Int.floor_nonneg.2 h
  unfold pyRound
  split_ifs <;> omega

theorem pyRound_le_intCast {q : ℚ} {n : ℤ} (h : q ≤ (n : ℚ)) : pyRound q ≤ n := by
  have hf : ⌊q⌋ ≤ n := by
    have := Int.floor_le_floor h
    simpa using this
  have hsucc : ¬ q - ⌊q⌋ < 1/2 → ⌊q⌋ + 1 ≤ n := by
    intro h1
    by_contra hc
    have hfn : ⌊q⌋ = n := by omega
    have hq : (n : ℚ) + 1/2 ≤ q := by
      have h2 := not_lt.1 h1
      rw [hfn] at h2
      linarith
    linarith
  unfold pyRound
  split_ifs with h1 h2 h3
  · exact hf
  · exact hsucc h1
  · exact hf
  · exact hsucc h1

theorem get_num_channels_to_keep_zero (c : ℕ) : get_num_channels_to_keep c 0 = c := by
  simpa [get_num_channels_to_keep] using pyRound_natCast c

theorem get_num_channels_to_keep_one (c : ℕ) : get_num_channels_to_keep c 1 = 0 := by
  simpa [get_num_channels_to_keep] using pyRound_intCast 0

theorem get_num_channels_to_keep_nonneg {r : ℚ} (hr : r ≤ 1) (c : ℕ) :
    0 ≤ get_num_channels_to_keep c r := by
  apply pyRound_nonneg
  have h1 : (0 : ℚ) ≤ 1 - r := by linarith
  positivity

theorem get_num_channels_to_keep_le {r : ℚ} (hr : 0 ≤ r) (c : ℕ) :
    get_num_channels_to_keep c r ≤ c := by
  apply pyRound_le_intCast
  push_cast
  nlinarith [Nat.cast_nonneg (α := ℚ) c]

/-! ### Lemmas about the Python slice `xs[:n]` -/

theorem pySlice_sublist (xs : List α) (n : ℤ) : (pySlice xs n).Sublist xs := by
  unfold pySlice
  split_ifs <;> exact List.take_sublist _ _

theorem pySlice_subset (xs : List α) (n : ℤ) : ∀ a ∈ pySlice xs n, a ∈ xs :=
  fun _ ha => (pySlice_sublist xs n).subset ha

theorem pySlice_length_le (xs : List α) (n : ℤ) :
    (pySlice xs n).length ≤ xs.length :=
  (pySlice_sublist xs n).length_le

theorem pySlice_of_nonneg (xs : List α) {n : ℤ} (h : 0 ≤ n) :
    pySlice xs n = xs.take n.toNat := by
  simp [pySlice, h]

theorem pySlice_length {xs : List α} {n : ℤ} (h0 : 0 ≤ n) (hle : n ≤ xs.length) :
    (pySlice xs n).length = n.toNat := by
  rw [pySlice_of_nonneg xs h0, List.length_take]
  omega

theorem pySlice_of_length_le {xs : List α} {n : ℤ} (h : (xs.length : ℤ) ≤ n) :
    pySlice xs n = xs := by
  rw [pySlice_of_nonneg xs (le_trans (by positivity) h)]
  exact List.take_of_length_le (by omega)

theorem pySlice_neg {xs : List α} {n : ℤ} (hn : n < 0) :
    pySlice xs n = xs.take ((xs.length : ℤ) + n).toNat := by
  simp [pySlice, not_le.2 hn]

theorem pySlice_map (f : α → β) (xs : List α) (n : ℤ) :
    pySlice (xs.map f) n = (pySlice xs n).map f := by
  unfold pySlice
  rw [List.length_map]
  split_ifs <;> rw [List.map_take]

/-! ### Lemmas about `indexSelect` -/

theorem indexSelect_subset (xs : List α) (idx : List ℕ) :
    ∀ a ∈ indexSelect xs idx, a ∈ xs := by
  intro a ha
  simp only [indexSelect, List.mem_filterMap] at ha
  obtain ⟨i, _, hi⟩ := ha
  obtain ⟨hlt, rfl⟩ := List.getElem?_eq_some_iff.1 hi
  exact List.getElem_mem hlt

theorem indexSelect_eq_map {xs : List α} {idx : List ℕ} (d : α)
    (h : ∀ i ∈ idx, i < xs.length) :
    indexSelect xs idx = idx.map fun i => xs.getD i d := by
  unfold indexSelect
  induction idx with
  | nil => rfl
  | cons i t ih =>
    have hi : i < xs.length := h i (List.mem_cons_self i t)
    simp only [List.filterMap_cons, List.map_cons, List.getElem?_eq_getElem hi,
      List.getD_eq_getElem xs d hi]
    rw [ih fun j hj => h j (List.mem_cons_of_mem i hj)]

theorem indexSelect_length {xs : List α} {idx : List ℕ}
    (h : ∀ i ∈ idx, i < xs.length) :
    (indexSelect xs idx).length = idx.length := by
  classical
  rcases xs with _ | ⟨x, xt⟩
  · rcases idx with _ | ⟨i, it⟩
    · rfl
    · exact absurd (h i (List.mem_cons_self i it)) (by simp)
  · rw [indexSelect_eq_map x h, List.length_map]

theorem indexSelect_map (f : α → β) (xs : List α) (idx : List ℕ) :
    indexSelect (xs.map f) idx = (indexSelect xs idx).map f := by
  unfold indexSelect
  induction idx with
  | nil => rfl
  | cons i t ih =>
    simp only [List.filterMap_cons, List.getElem?_map] at ih ⊢
    cases hx : xs[i]? <;> simp [hx, ih]

/-! ### Lemmas about `argsortDesc` -/

theorem argsortDesc_perm (xs : List ℚ) :
    (argsortDesc xs).Perm (List.range xs.length) := by
  unfold argsortDesc
  have h := (List.mergeSort_perm xs.enum fun a b => decide (b.2 ≤ a.2)).map Prod.fst
  rwa [List.enum_map_fst] at h

theorem argsortDesc_length (xs : List ℚ) : (argsortDesc xs).length = xs.length := by
  simpa using (argsortDesc_perm xs).length_eq

theorem argsortDesc_mem_lt {xs : List ℚ} {i : ℕ} (h : i ∈ argsortDesc xs) :
    i < xs.length := by
  simpa using (argsortDesc_perm xs).mem_iff.1 h

theorem argsortDesc_nodup (xs : List ℚ) : (argsortDesc xs).Nodup :=
  (argsortDesc_perm xs).nodup_iff.2 (List.nodup_range _)

theorem mem_mergeSort_enum_getD {xs : List ℚ} {p : ℕ × ℚ}
    (h : p ∈ xs.enum.mergeSort fun a b => decide (b.2 ≤ a.2)) :
    xs.getD p.1 0 = p.2 := by
  have hm : p ∈ xs.enum := (List.mergeSort_perm xs.enum _).mem_iff.1 h
  have hg : xs[p.1]? = some p.2 := List.mem_enum_iff_getElem?.1 hm
  rw [List.getD_eq_getElem?_getD, hg]
  rfl

theorem argsortDesc_sorted (xs : List ℚ) :
    List.Pairwise (fun i j => xs.getD j 0 ≤ xs.getD i 0) (argsortDesc xs) := by
  unfold argsortDesc
  rw [List.pairwise_map]
  have hs := @List.sorted_mergeSort (ℕ × ℚ)
    (fun a b : ℕ × ℚ => decide (b.2 ≤ a.2))
    (fun a b c hab hbc => by
      simp only [decide_eq_true_eq] at *
      exact le_trans hbc hab)
    (fun a b => by
      simp only [Bool.or_eq_true, decide_eq_true_eq]
      exact le_total b.2 a.2)
    xs.enum
  refine hs.imp_of_mem ?_
  intro a b ha hb hab
  simp only [decide_eq_true_eq] at hab
  rw [mem_mergeSort_enum_getD ha, mem_mergeSort_enum_getD hb]
  exact hab

theorem argsortDesc_take_topK {xs : List ℚ} {k : ℕ} :
    ∀ i ∈ (argsortDesc xs).take k, ∀ j, j < xs.length →
      j ∉ (argsortDesc xs).take k → xs.getD j 0 ≤ xs.getD i 0 := by
  intro i hi j hj hjn
  have hjmem : j ∈ argsortDesc xs :=
    (argsortDesc_perm xs).mem_iff.2 (List.mem_range.2 hj)
  rw [← List.take_append_drop k (argsortDesc xs)] at hjmem
  have hjdrop : j ∈ (argsortDesc xs).drop k := by
    rcases List.mem_append.1 hjmem with h | h
    · exact absurd h hjn
    · exact h
  have hsorted := argsortDesc_sorted xs
  rw [← List.take_append_drop k (argsortDesc xs)] at hsorted
  exact (List.pairwise_append.1 hsorted).2.2 i hi j hjdrop

theorem argsortDesc_take_mem_lt {xs : List ℚ} {k : ℕ} {i : ℕ}
    (h : i ∈ (argsortDesc xs).take k) : i < xs.length :=
  argsortDesc_mem_lt (List.take_subset k _ h)

theorem argsortDesc_take_nodup (xs : List ℚ) (k : ℕ) :
    ((argsortDesc xs).take k).Nodup :=
  (argsortDesc_nodup xs).sublist (List.take_sublist k _)

theorem argsortDesc_take_length {xs : List ℚ} {k : ℕ} (h : k ≤ xs.length) :
    ((argsortDesc xs).take k).length = k := by
  rw [List.length_take, argsortDesc_length]
  omega

/-! ### Structural lemmas about feature lists and conv-layer write-back -/


theorem setConvs_convLayers (ls : List Layer) : setConvs ls (convLayers ls) = ls := by
  induction ls with
  | nil => rfl
  | cons l t ih =>
    cases l <;> simp [convLayers, setConvs, List.filterMap_cons] at ih ⊢ <;>
      simpa [convLayers] using ih

theorem convLayers_cons_conv (c : Conv2d) (t : List Layer) :
    convLayers (.conv2d c :: t) = c :: convLayers t := rfl

theorem convLayers_cons_relu (t : List Layer) :
    convLayers (.relu :: t) = convLayers t := rfl

theorem convLayers_cons_maxpool (t : List Layer) :
    convLayers (.maxpool2d :: t) = convLayers t := rfl

theorem convLayers_setConvs (ls : List Layer) (cs : List Conv2d)
    (h : cs.length = (convLayers ls).length) :
    convLayers (setConvs ls cs) = cs := by
  induction ls generalizing cs with
  | nil =>
    cases cs with
    | nil => rfl
    | cons c t => simp [convLayers] at h
  | cons l t ih =>
    cases l with
    | conv2d c =>
      cases cs with
      | nil => simp [convLayers_cons_conv] at h
      | cons c' cs' =>
        have h' : cs'.length = (convLayers t).length := by
          simp only [convLayers_cons_conv, List.length_cons] at h
          omega
        simp only [setConvs, convLayers_cons_conv]
        rw [ih cs' h']
    | relu =>
      simp only [setConvs, convLayers_cons_relu] at h ⊢
      exact ih cs h
    | maxpool2d =>
      simp only [setConvs, convLayers_cons_maxpool] at h ⊢
      exact ih cs h

theorem pruneConvs_length (cs : List Conv2d) (rs : List ℚ) :
    (pruneConvs cs rs).length = cs.length := by
  induction rs generalizing cs with
  | nil =>
    cases cs with
    | nil => rfl
    | cons a t => cases t <;> rfl
  | cons r rs ih =>
    match cs with
    | [] => rfl
    | [c] => rfl
    | c1 :: c2 :: rest =>
      simp only [pruneConvs, List.length_cons]
      rw [ih]
      simp

theorem sortConvs_nil : sortConvs [] = [] := by
  simp [sortConvs]

theorem sortConvs_singleton (c : Conv2d) : sortConvs [c] = [c] := by
  simp [sortConvs]

theorem sortConvs_cons_cons (c1 c2 : Conv2d) (rest : List Conv2d) :
    sortConvs (c1 :: c2 :: rest) =
      sortOutConv c1 (argsortDesc (importanceSq c2.weight)) ::
        sortConvs (sortInConv c2 (argsortDesc (importanceSq c2.weight)) :: rest) := by
  simp [sortConvs]

theorem sortConvs_length (cs : List Conv2d) : (sortConvs cs).length = cs.length := by
  match cs with
  | [] => rw [sortConvs_nil]
  | [c] => rw [sortConvs_singleton]
  | c1 :: c2 :: rest =>
    rw [sortConvs_cons_cons]
    simp only [List.length_cons]
    rw [sortConvs_length (sortInConv c2 _ :: rest)]
    simp
termination_by cs.length
decreasing_by simp

/-! ### Attribute preservation and commutation of the axis operations -/

theorem pruneOutConv_attrs (c : Conv2d) (n : ℤ) :
    (pruneOutConv c n).in_channels = c.in_channels ∧
    (pruneOutConv c n).out_channels = c.out_channels := ⟨rfl, rfl⟩

theorem pruneInConv_attrs (c : Conv2d) (n : ℤ) :
    (pruneInConv c n).in_channels = c.in_channels ∧
    (pruneInConv c n).out_channels = c.out_channels := ⟨rfl, rfl⟩

theorem pruneOutConv_pruneInConv (c : Conv2d) (n m : ℤ) :
    pruneOutConv (pruneInConv c m) n = pruneInConv (pruneOutConv c n) m := by
  simp only [pruneOutConv, pruneInConv, pySlice_map]

theorem pruneOutConv_sortInConv (c : Conv2d) (idx : List ℕ) (n : ℤ) :
    pruneOutConv (sortInConv c idx) n = sortInConv (pruneOutConv c n) idx := by
  simp only [pruneOutConv, sortInConv, pySlice_map]

theorem sortOutConv_sortInConv (c : Conv2d) (idx idx' : List ℕ) :
    sortOutConv (sortInConv c idx) idx' = sortInConv (sortOutConv c idx') idx := by
  simp only [sortOutConv, sortInConv, indexSelect_map]

theorem applyHead_getD_succ (f : α → α) (xs : List α) (j : ℕ) (d : α) :
    (applyHead f xs).getD (j + 1) d = xs.getD (j + 1) d := by
  cases xs <;> rfl

theorem applyHead_length (f : α → α) (xs : List α) :
    (applyHead f xs).length = xs.length := by
  cases xs <;> rfl

/-- Pushing a head modification out of the pruning loop: any operation that
only rewrites the input-channel axis of the head (hence preserves its
`out_channels` attribute and commutes with output-axis truncation) can be
delayed until after the loop. -/
theorem pruneConvs_applyHead (f : Conv2d → Conv2d)
    (hattr : ∀ c, (f c).out_channels = c.out_channels)
    (hcomm : ∀ c n, pruneOutConv (f c) n = f (pruneOutConv c n))
    (x : Conv2d) (t : List Conv2d) (rs : List ℚ) :
    pruneConvs (f x :: t) rs = applyHead f (pruneConvs (x :: t) rs) := by
  cases rs with
  | nil => cases t <;> rfl
  | cons r rs' =>
    cases t with
    | nil => rfl
    | cons y t' =>
      simp only [pruneConvs, hattr, hcomm, applyHead]

/-- Pushing a head modification out of the sorting loop: the loop reads only
the second element's weight to build the permutation, so a modification of
the head that commutes with output-axis reordering can be delayed. -/
theorem sortConvs_applyHead (f : Conv2d → Conv2d)
    (hcomm : ∀ c idx, sortOutConv (f c) idx = f (sortOutConv c idx))
    (x : Conv2d) (t : List Conv2d) :
    sortConvs (f x :: t) = applyHead f (sortConvs (x :: t)) := by
  cases t with
  | nil => rw [sortConvs_singleton, sortConvs_singleton]; rfl
  | cons y t' =>
    rw [sortConvs_cons_cons, sortConvs_cons_cons, hcomm]
    rfl

/-! ### Head of the running tail in the two loops -/

theorem pruneConvs_getD_zero_cases (x : Conv2d) (t : List Conv2d) (rs : List ℚ) :
    (pruneConvs (x :: t) rs).getD 0 default = x ∨
    ∃ n, (pruneConvs (x :: t) rs).getD 0 default = pruneOutConv x n := by
  cases rs with
  | nil => cases t <;> exact Or.inl rfl
  | cons r rs' =>
    cases t with
    | nil => exact Or.inl rfl
    | cons y t' => exact Or.inr ⟨_, rfl⟩

theorem sortConvs_getD_zero_cases (x : Conv2d) (t : List Conv2d) :
    (sortConvs (x :: t)).getD 0 default = x ∨
    ∃ idx, (sortConvs (x :: t)).getD 0 default = sortOutConv x idx := by
  cases t with
  | nil => rw [sortConvs_singleton]; exact Or.inl rfl
  | cons y t' => rw [sortConvs_cons_cons]; exact Or.inr ⟨_, rfl⟩

theorem pruneOutConv_weight_subset (c : Conv2d) (n : ℤ) :
    ∀ row ∈ (pruneOutConv c n).weight, row ∈ c.weight :=
  pySlice_subset c.weight n

theorem sortOutConv_weight_subset (c : Conv2d) (idx : List ℕ) :
    ∀ row ∈ (sortOutConv c idx).weight, row ∈ c.weight :=
  indexSelect_subset c.weight idx

/-- Rows of the head of a finished pruning run over `x :: t` all come from
`x`'s weight: later iterations only drop or reorder whole output rows. -/
theorem pruneConvs_getD_zero_weight_subset (x : Conv2d) (t : List Conv2d) (rs : List ℚ) :
    ∀ row ∈ ((pruneConvs (x :: t) rs).getD 0 default).weight, row ∈ x.weight := by
  rcases pruneConvs_getD_zero_cases x t rs with h | ⟨n, h⟩ <;> rw [h]
  · exact fun _ hr => hr
  · exact pruneOutConv_weight_subset x n

theorem sortConvs_getD_zero_weight_subset (x : Conv2d) (t : List Conv2d) :
    ∀ row ∈ ((sortConvs (x :: t)).getD 0 default).weight, row ∈ x.weight := by
  rcases sortConvs_getD_zero_cases x t with h | ⟨idx, h⟩ <;> rw [h]
  · exact fun _ hr => hr
  · exact sortOutConv_weight_subset x idx

/-! ### Shape preservation through the pruning loop (claim C1 machinery) -/

theorem pruneInConv_preserves_PruneWf (c2 : Conv2d) (rest : List Conv2d) (n : ℤ)
    (h : PruneWf (c2 :: rest)) : PruneWf (pruneInConv c2 n :: rest) := by
  have houtwf : ∀ (c : Conv2d) (m : ℤ), OutWf c → OutWf (pruneInConv c m) := by
    intro c m ⟨hw, hb⟩
    refine ⟨?_, hb⟩
    simpa [pruneInConv] using hw
  cases rest with
  | nil =>
    unfold PruneWf at h ⊢
    exact houtwf c2 n h
  | cons c3 r3 =>
    obtain ⟨h1, h2, h3⟩ := h
    exact ⟨houtwf c2 n h1, h2, h3⟩

theorem PruneWf_tail (c1 : Conv2d) (t : List Conv2d) (h : PruneWf (c1 :: t)) :
    PruneWf t := by
  cases t with
  | nil => trivial
  | cons c2 rest => exact h.2.2

/-- After a full run of the pruning loop, for every processed adjacent pair
`(j, j+1)` the producer's weight (first axis) and bias have exactly the
pair's keep count, and every output row of the consumer has exactly that
many input channels. -/
theorem pruneConvs_shapes :
    ∀ (j : ℕ) (cs : List Conv2d) (rs : List ℚ),
      PruneWf cs → (∀ r ∈ rs, 0 ≤ r ∧ r ≤ 1) →
      j < rs.length → j + 1 < cs.length →
      ((pruneConvs cs rs).getD j default).weight.length = (pairKeep cs rs j).toNat ∧
      (∀ b, ((pruneConvs cs rs).getD j default).bias = some b →
          b.length = (pairKeep cs rs j).toNat) ∧
      (∀ row ∈ ((pruneConvs cs rs).getD (j + 1) default).weight,
          row.length = (pairKeep cs rs j).toNat) := by
  intro j
  induction j with
  | zero =>
    intro cs rs hwf hr hj hj1
    match cs, rs with
    | c1 :: c2 :: rest, r :: rs' =>
      have hr0 : 0 ≤ r ∧ r ≤ 1 := hr r (List.mem_cons_self r rs')
      have hn0 : 0 ≤ get_num_channels_to_keep c1.out_channels r :=
        get_num_channels_to_keep_nonneg hr0.2 _
      have hnle : get_num_channels_to_keep c1.out_channels r ≤ c1.out_channels :=
        get_num_channels_to_keep_le hr0.1 _
      have hk : pairKeep (c1 :: c2 :: rest) (r :: rs') 0 =
          get_num_channels_to_keep c1.out_channels r := rfl
      obtain ⟨how, hob⟩ : OutWf c1 := hwf.1
      have hred : pruneConvs (c1 :: c2 :: rest) (r :: rs') =
          pruneOutConv c1 (get_num_channels_to_keep c1.out_channels r) ::
            pruneConvs
              (pruneInConv c2 (get_num_channels_to_keep c1.out_channels r) :: rest)
              rs' := rfl
      rw [hk, hred]
      simp only [List.getD_cons_zero, List.getD_cons_succ]
      refine ⟨?_, ?_, ?_⟩
      · exact pySlice_length hn0 (by rw [how]; exact_mod_cast hnle)
      · intro b hb
        simp only [pruneOutConv] at hb
        rcases hbc : c1.bias with _ | b0
        · rw [hbc] at hb; simp at hb
        · rw [hbc] at hb
          simp only [Option.map_some'] at hb
          obtain rfl := Option.some.inj hb
          exact pySlice_length hn0 (by rw [hob b0 hbc]; exact_mod_cast hnle)
      · intro row hrow
        have hmem := pruneConvs_getD_zero_weight_subset _ rest rs' row hrow
        simp only [pruneInConv, List.mem_map] at hmem
        obtain ⟨row0, hrow0, rfl⟩ := hmem
        exact pySlice_length hn0 (by rw [hwf.2.1 row0 hrow0]; exact_mod_cast hnle)
  | succ j ih =>
    intro cs rs hwf hr hj hj1
    match cs, rs with
    | c1 :: c2 :: rest, r :: rs' =>
      have hr0 : 0 ≤ r ∧ r ≤ 1 := hr r (List.mem_cons_self r rs')
      set n := get_num_channels_to_keep c1.out_channels r with hn
      have hwf' : PruneWf (pruneInConv c2 n :: rest) :=
        pruneInConv_preserves_PruneWf c2 rest n hwf.2.2
      have hr' : ∀ x ∈ rs', 0 ≤ x ∧ x ≤ 1 := fun x hx => hr x (List.mem_cons_of_mem r hx)
      have hj' : j < rs'.length := by simpa using hj
      have hj1' : j + 1 < (pruneInConv c2 n :: rest).length := by
        simpa using hj1
      have hres := ih (pruneInConv c2 n :: rest) rs' hwf' hr' hj' hj1'
      have hkeq : pairKeep (pruneInConv c2 n :: rest) rs' j =
          pairKeep (c1 :: c2 :: rest) (r :: rs') (j + 1) := by
        unfold pairKeep
        cases j <;> rfl
      have hgoal : pruneConvs (c1 :: c2 :: rest) (r :: rs') =
          pruneOutConv c1 n :: pruneConvs (pruneInConv c2 n :: rest) rs' := rfl
      rw [hgoal]
      simp only [List.getD_cons_succ]
      rw [← hkeq]
      exact hres

/-! ### Ratio-zero pruning is the identity (claim C7 machinery) -/

theorem SlackWf_tail (c1 : Conv2d) (t : List Conv2d) (h : SlackWf (c1 :: t)) :
    SlackWf t := by
  cases t with
  | nil => trivial
  | cons c2 rest => exact h.2.2

theorem pruneOutConv_id {c : Conv2d} {n : ℤ}
    (hw : (c.weight.length : ℤ) ≤ n)
    (hb : ∀ b, c.bias = some b → (b.length : ℤ) ≤ n) :
    pruneOutConv c n = c := by
  rcases c with ⟨ic, oc, w, b⟩
  simp only [pruneOutConv, Conv2d.mk.injEq, true_and]
  constructor
  · exact pySlice_of_length_le hw
  · rcases b with _ | b0
    · rfl
    · simp only [Option.map_some']
      rw [pySlice_of_length_le (hb b0 rfl)]

theorem pruneInConv_id {c : Conv2d} {n : ℤ}
    (hw : ∀ row ∈ c.weight, (row.length : ℤ) ≤ n) :
    pruneInConv c n = c := by
  rcases c with ⟨ic, oc, w, b⟩
  simp only [pruneInConv, Conv2d.mk.injEq, true_and, and_true]
  have h : ∀ row ∈ w, pySlice row n = row := fun row hr =>
    pySlice_of_length_le (hw row hr)
  calc w.map (fun row => pySlice row n) = w.map id := List.map_congr_left h
  _ = w := List.map_id w

theorem pruneConvs_replicate_zero :
    ∀ (m : ℕ) (cs : List Conv2d), SlackWf cs →
      pruneConvs cs (List.replicate m 0) = cs := by
  intro m
  induction m with
  | zero =>
    intro cs _
    cases cs with
    | nil => rfl
    | cons a t => cases t <;> rfl
  | succ m ih =>
    intro cs h
    match cs with
    | [] => rfl
    | [c] => rfl
    | c1 :: c2 :: rest =>
      obtain ⟨⟨hw1, hb1⟩, hrow, htail⟩ := h
      have hz : get_num_channels_to_keep c1.out_channels 0 = (c1.out_channels : ℤ) :=
        get_num_channels_to_keep_zero _
      have hred : pruneConvs (c1 :: c2 :: rest) (List.replicate (m + 1) 0) =
          pruneOutConv c1 (get_num_channels_to_keep c1.out_channels 0) ::
            pruneConvs
              (pruneInConv c2 (get_num_channels_to_keep c1.out_channels 0) :: rest)
              (List.replicate m 0) := by
        rw [List.replicate_succ]
        rfl
      rw [hred, hz]
      rw [pruneOutConv_id (by exact_mod_cast hw1)
            (fun b hb => by exact_mod_cast hb1 b hb)]
      rw [pruneInConv_id (fun row hr => by exact_mod_cast hrow row hr)]
      rw [ih (c2 :: rest) htail]

/-! ### Closed form of the sorting loop (claim C3 machinery) -/

theorem applyHead_getD_zero (f : α → α) {xs : List α} (h : xs ≠ []) (d : α) :
    (applyHead f xs).getD 0 d = f (xs.getD 0 d) := by
  cases xs with
  | nil => exact absurd rfl h
  | cons x t => rfl

theorem sortConvs_ne_nil {cs : List Conv2d} (h : cs ≠ []) : sortConvs cs ≠ [] := by
  intro hc
  apply h
  have := sortConvs_length cs
  rw [hc] at this
  exact List.length_eq_zero.1 this.symm

theorem pairIdx_cons_succ (c : Conv2d) (cs : List Conv2d) (j : ℕ) :
    pairIdx (c :: cs) (j + 1) = pairIdx cs j := rfl

theorem sortConvs_applyHead_sortIn (idx : List ℕ) (x : Conv2d) (t : List Conv2d) :
    sortConvs (sortInConv x idx :: t) =
      applyHead (fun c => sortInConv c idx) (sortConvs (x :: t)) :=
  sortConvs_applyHead (fun c => sortInConv c idx)
    (fun c i => sortOutConv_sortInConv c idx i) x t

theorem sortConvs_getD_zero (c1 c2 : Conv2d) (rest : List Conv2d) :
    (sortConvs (c1 :: c2 :: rest)).getD 0 default =
      sortOutConv c1 (pairIdx (c1 :: c2 :: rest) 0) := by
  rw [sortConvs_cons_cons]
  rfl

theorem sortConvs_getD_last :
    ∀ (j : ℕ) (cs : List Conv2d), j + 2 = cs.length →
      (sortConvs cs).getD (j + 1) default =
        sortInConv (cs.getD (j + 1) default) (pairIdx cs j) := by
  intro j
  induction j with
  | zero =>
    intro cs h
    match cs, h with
    | [c1, c2], _ =>
      rw [sortConvs_cons_cons, List.getD_cons_succ, sortConvs_applyHead_sortIn,
        sortConvs_singleton]
      rfl
  | succ j ih =>
    intro cs h
    match cs with
    | c1 :: c2 :: rest =>
      have hlen : j + 2 = (c2 :: rest).length := by
        simp only [List.length_cons] at h ⊢
        omega
      rw [sortConvs_cons_cons, List.getD_cons_succ, sortConvs_applyHead_sortIn,
        applyHead_getD_succ, ih (c2 :: rest) hlen]
      rfl

theorem sortConvs_getD_middle :
    ∀ (j : ℕ) (cs : List Conv2d), j + 2 < cs.length →
      (sortConvs cs).getD (j + 1) default =
        sortOutConv (sortInConv (cs.getD (j + 1) default) (pairIdx cs j))
          (pairIdx cs (j + 1)) := by
  intro j
  induction j with
  | zero =>
    intro cs h
    match cs with
    | c1 :: c2 :: c3 :: rest =>
      rw [sortConvs_cons_cons, List.getD_cons_succ, sortConvs_applyHead_sortIn,
        applyHead_getD_zero _ (sortConvs_ne_nil (by simp)) _,
        sortConvs_getD_zero c2 c3 rest, sortOutConv_sortInConv]
      rfl
  | succ j ih =>
    intro cs h
    match cs with
    | c1 :: c2 :: rest =>
      have hlen : j + 2 < (c2 :: rest).length := by
        simp only [List.length_cons] at h ⊢
        omega
      rw [sortConvs_cons_cons, List.getD_cons_succ, sortConvs_applyHead_sortIn,
        applyHead_getD_succ, ih (c2 :: rest) hlen]
      rfl

/-! ### Sorting followed by pruning keeps the argsort prefix (claim C2 machinery) -/

theorem importanceSq_length (w : Weight) :
    (importanceSq w).length = (w.headD []).length := by
  simp [importanceSq]

theorem pruneConvs_applyHead_sortIn_pruneIn (idx : List ℕ) (k : ℤ)
    (x : Conv2d) (t : List Conv2d) (rs : List ℚ) :
    pruneConvs (pruneInConv (sortInConv x idx) k :: t) rs =
      applyHead (fun c => pruneInConv (sortInConv c idx) k) (pruneConvs (x :: t) rs) :=
  pruneConvs_applyHead (fun c => pruneInConv (sortInConv c idx) k)
    (fun _ => rfl)
    (fun c n => by rw [pruneOutConv_pruneInConv, pruneOutConv_sortInConv])
    x t rs

/-- Composite run `channel_prune ∘ apply_channel_sorting` at the conv-list
level: every output row of the consumer of pair `(j, j+1)` is obtained from
an output row of the ORIGINAL consumer by keeping exactly the input
channels listed in the first `n_keep` entries of that pair's descending
argsort, in that order. -/
theorem composite_consumer_rows :
    ∀ (j : ℕ) (cs : List Conv2d) (rs : List ℚ),
      (∀ c ∈ cs, RectW c.weight) → (∀ r ∈ rs, r ≤ 1) →
      j < rs.length → j + 1 < cs.length →
      ∀ row ∈ ((pruneConvs (sortConvs cs) rs).getD (j + 1) default).weight,
        ∃ orow ∈ (cs.getD (j + 1) default).weight,
          row = ((pairIdx cs j).take (pairKeep cs rs j).toNat).map
            fun i => orow.getD i [] := by
  intro j
  induction j with
  | zero =>
    intro cs rs hrect hr hj hj1
    match cs, rs with
    | c1 :: c2 :: rest, r :: rs' =>
      intro row hrow
      rw [sortConvs_cons_cons, sortConvs_applyHead_sortIn] at hrow
      rcases hS0 : sortConvs (c2 :: rest) with _ | ⟨s0, st⟩
      · exact absurd hS0 (sortConvs_ne_nil (by simp))
      rw [hS0] at hrow
      set idx := argsortDesc (importanceSq c2.weight) with hidx
      have hred : pruneConvs (sortOutConv c1 idx :: applyHead (fun c => sortInConv c idx) (s0 :: st)) (r :: rs') =
          pruneOutConv (sortOutConv c1 idx) (get_num_channels_to_keep c1.out_channels r) ::
            pruneConvs
              (pruneInConv (sortInConv s0 idx) (get_num_channels_to_keep c1.out_channels r) :: st)
              rs' := rfl
      rw [hred, List.getD_cons_succ] at hrow
      set kZ := get_num_channels_to_keep c1.out_channels r with hkZ
      have hsub := pruneConvs_getD_zero_weight_subset
        (pruneInConv (sortInConv s0 idx) kZ) st rs' row hrow
      simp only [pruneInConv, sortInConv, List.map_map, List.mem_map,
        Function.comp] at hsub
      obtain ⟨srow, hsrow, rfl⟩ := hsub
      have hsrow2 : srow ∈ c2.weight := by
        have := sortConvs_getD_zero_weight_subset c2 rest
        rw [hS0] at this
        exact this srow hsrow
      refine ⟨srow, hsrow2, ?_⟩
      have hci : srow.length = (c2.weight.headD []).length :=
        hrect c2 (by simp) srow hsrow2
      have hbound : ∀ i ∈ idx, i < srow.length := by
        intro i hi
        rw [hci]
        have := argsortDesc_mem_lt hi
        rwa [importanceSq_length] at this
      have hk0 : (0 : ℤ) ≤ kZ :=
        get_num_channels_to_keep_nonneg (hr r (by simp)) _
      rw [indexSelect_eq_map ([] : Kernel) hbound, pySlice_of_nonneg _ hk0,
        List.map_take]
      rfl
  | succ j ih =>
    intro cs rs hrect hr hj hj1
    match cs, rs with
    | c1 :: c2 :: rest, r :: rs' =>
      intro row hrow
      rw [sortConvs_cons_cons, sortConvs_applyHead_sortIn] at hrow
      rcases hS0 : sortConvs (c2 :: rest) with _ | ⟨s0, st⟩
      · exact absurd hS0 (sortConvs_ne_nil (by simp))
      rw [hS0] at hrow
      set idx := argsortDesc (importanceSq c2.weight) with hidx
      have hred : pruneConvs (sortOutConv c1 idx :: applyHead (fun c => sortInConv c idx) (s0 :: st)) (r :: rs') =
          pruneOutConv (sortOutConv c1 idx) (get_num_channels_to_keep c1.out_channels r) ::
            pruneConvs
              (pruneInConv (sortInConv s0 idx) (get_num_channels_to_keep c1.out_channels r) :: st)
              rs' := rfl
      rw [hred, List.getD_cons_succ] at hrow
      rw [pruneConvs_applyHead_sortIn_pruneIn, applyHead_getD_succ, ← hS0] at hrow
      have hrect' : ∀ c ∈ c2 :: rest, RectW c.weight := fun c hc =>
        hrect c (List.mem_cons_of_mem c1 hc)
      have hr' : ∀ x ∈ rs', x ≤ 1 := fun x hx => hr x (List.mem_cons_of_mem r hx)
      have hj' : j < rs'.length := by simpa using hj
      have hj1' : j + 1 < (c2 :: rest).length := by simpa using hj1
      exact ih (c2 :: rest) rs' hrect' hr' hj' hj1' row hrow

/-! ### Frobenius norms versus squared norms, and the top-k property -/

theorem sqNorm3_nonneg (t : List Kernel) : 0 ≤ sqNorm3 t := by
  unfold sqNorm3
  apply List.sum_nonneg
  intro x hx
  simp only [List.mem_map] at hx
  obtain ⟨m, _, rfl⟩ := hx
  apply List.sum_nonneg
  intro y hy
  simp only [List.mem_map] at hy
  obtain ⟨row, _, rfl⟩ := hy
  apply List.sum_nonneg
  intro z hz
  simp only [List.mem_map] at hz
  obtain ⟨q, _, rfl⟩ := hz
  exact mul_self_nonneg q

theorem get_input_channel_importance_length (w : Weight) :
    (get_input_channel_importance w).length = (w.headD []).length := by
  simp [get_input_channel_importance]

theorem getD_map_of_lt (f : α → β) (l : List α) {n : ℕ} (h : n < l.length)
    (d : α) (e : β) : (l.map f).getD n e = f (l.getD n d) := by
  rw [List.getD_eq_getElem?_getD, List.getElem?_map, List.getElem?_eq_getElem h,
    List.getD_eq_getElem l d h]
  rfl

theorem map_getD_range (l : List α) (d : α) :
    ((List.range l.length).map fun i => l.getD i d) = l := by
  induction l with
  | nil => rfl
  | cons x t ih =>
    rw [List.length_cons, List.range_succ_eq_map, List.map_cons, List.map_map]
    have hc : ((fun i => (x :: t).getD i d) ∘ Nat.succ) = fun i => t.getD i d := by
      funext i
      rfl
    rw [hc, ih]
    rfl

theorem get_input_channel_importance_getD {w : Weight} {i : ℕ}
    (h : i < (w.headD []).length) :
    (get_input_channel_importance w).getD i 0 =
      Real.sqrt (((importanceSq w).getD i 0 : ℚ) : ℝ) := by
  unfold get_input_channel_importance importanceSq
  have hr : i < (List.range (w.headD []).length).length := by simpa using h
  rw [getD_map_of_lt _ _ hr 0, getD_map_of_lt _ _ hr 0]

theorem get_input_channel_importance_nonneg (w : Weight) :
    ∀ s ∈ get_input_channel_importance w, 0 ≤ s := by
  intro s hs
  simp only [get_input_channel_importance, List.mem_map] at hs
  obtain ⟨i, _, rfl⟩ := hs
  exact Real.sqrt_nonneg _

/-- The first `k` entries of the descending argsort of the squared
importances are a top-`k` channel subset with respect to the real
(Frobenius-norm) importances: the square root is monotone, so the two
orders agree. -/
theorem argsort_take_IsTopK (w : Weight) (k : ℕ) :
    IsTopK (get_input_channel_importance w)
      ((argsortDesc (importanceSq w)).take k) := by
  refine ⟨argsortDesc_take_nodup _ k, ?_, ?_⟩
  · intro i hi
    have := argsortDesc_take_mem_lt hi
    rw [importanceSq_length] at this
    rwa [get_input_channel_importance_length]
  · intro i hi j hj hjn
    rw [get_input_channel_importance_length] at hj
    have hi' : i < (w.headD []).length := by
      have := argsortDesc_take_mem_lt hi
      rwa [importanceSq_length] at this
    rw [get_input_channel_importance_getD hj, get_input_channel_importance_getD hi']
    apply Real.sqrt_le_sqrt
    have := argsortDesc_take_topK i hi j (by rwa [importanceSq_length]) hjn
    exact_mod_cast this

/-! ### Permutation facts: reordering is lossless (claim C3 machinery) -/

theorem indexSelect_perm {xs : List α} {idx : List ℕ}
    (h : idx.Perm (List.range xs.length)) :
    (indexSelect xs idx).Perm xs := by
  rcases xs with _ | ⟨x, xt⟩
  · have : idx = [] := by simpa using h.eq_nil
    subst this
    rfl
  · have hb : ∀ i ∈ idx, i < (x :: xt).length := fun i hi =>
      List.mem_range.1 (h.mem_iff.1 hi)
    rw [indexSelect_eq_map x hb]
    have hm := h.map fun i => (x :: xt).getD i x
    rwa [map_getD_range (x :: xt) x] at hm

theorem pointwise_flatten_perm {l : List β} {f g : β → List γ}
    (h : ∀ x ∈ l, (f x).Perm (g x)) :
    ((l.map f).flatten).Perm ((l.map g).flatten) := by
  induction l with
  | nil => rfl
  | cons x t ih =>
    simp only [List.map_cons, List.flatten_cons]
    exact (h x (by simp)).append (ih fun y hy => h y (by simp [hy]))

theorem flatW_perm_of_rows_perm {w w' : Weight} (h : w'.Perm w) :
    (flatW w').Perm (flatW w) := by
  unfold flatW
  exact (h.map _).flatten

theorem flatW_sortInConv_perm {w : Weight} {idx : List ℕ}
    (hrect : ∀ row ∈ w, idx.Perm (List.range row.length)) :
    (flatW (w.map fun row => indexSelect row idx)).Perm (flatW w) := by
  unfold flatW
  rw [List.map_map]
  apply pointwise_flatten_perm
  intro row hrow
  have h1 : (indexSelect row idx).Perm row := indexSelect_perm (hrect row hrow)
  exact (h1.map _).flatten

theorem channelDot_indexSelect (row : List ℚ) (idx : List ℕ) (a : ℕ → ℚ)
    (hp : idx.Perm (List.range row.length)) :
    channelDot (indexSelect row idx) (fun t => a (idx.getD t 0)) = channelDot row a := by
  have hb : ∀ i ∈ idx, i < row.length := fun i hi =>
    List.mem_range.1 (hp.mem_iff.1 hi)
  unfold channelDot
  rw [indexSelect_eq_map (0 : ℚ) hb, List.length_map]
  have h1 : ((List.range idx.length).map fun t =>
      (idx.map fun i => row.getD i 0).getD t 0 * a (idx.getD t 0)) =
      (List.range idx.length).map fun t =>
        (fun i => row.getD i 0 * a i) (idx.getD t 0) := by
    apply List.map_congr_left
    intro t ht
    have htl : t < idx.length := List.mem_range.1 ht
    rw [getD_map_of_lt _ _ htl 0]
  rw [h1]
  have h2 : ((List.range idx.length).map fun t =>
      (fun i => row.getD i 0 * a i) (idx.getD t 0)) =
      idx.map fun i => row.getD i 0 * a i := by
    calc ((List.range idx.length).map fun t =>
          (fun i => row.getD i 0 * a i) (idx.getD t 0))
        = ((List.range idx.length).map fun t => idx.getD t 0).map
            fun i => row.getD i 0 * a i := by rw [List.map_map]; rfl
      _ = idx.map fun i => row.getD i 0 * a i := by rw [map_getD_range idx 0]
  rw [h2]
  exact (hp.map fun i => row.getD i 0 * a i).sum_eq

/-! ### Parameter counting (claim C6 machinery) -/

theorem layerParams_conv (c : Conv2d) :
    layerParams (.conv2d c) = weightParams c.weight + (c.bias.map List.length).getD 0 := rfl

theorem sum_layerParams_setConvs :
    ∀ (ls : List Layer) (cs : List Conv2d), cs.length = (convLayers ls).length →
      ((setConvs ls cs).map layerParams).sum =
        (cs.map fun c => layerParams (.conv2d c)).sum := by
  intro ls
  induction ls with
  | nil =>
    intro cs h
    cases cs with
    | nil => rfl
    | cons c t => simp [convLayers] at h
  | cons l t ih =>
    intro cs h
    cases l with
    | conv2d c =>
      cases cs with
      | nil => simp [convLayers_cons_conv] at h
      | cons c' cs' =>
        have h' : cs'.length = (convLayers t).length := by
          simp only [convLayers_cons_conv, List.length_cons] at h
          omega
        simp only [setConvs, List.map_cons, List.sum_cons]
        rw [ih cs' h']
    | relu =>
      have hz : layerParams .relu = 0 := rfl
      simp only [setConvs, List.map_cons, List.sum_cons, hz]
      rw [ih cs (by simpa [convLayers_cons_relu] using h)]
      omega
    | maxpool2d =>
      have hz : layerParams .maxpool2d = 0 := rfl
      simp only [setConvs, List.map_cons, List.sum_cons, hz]
      rw [ih cs (by simpa [convLayers_cons_maxpool] using h)]
      omega

theorem weightParams_pySlice_le (w : Weight) (n : ℤ) :
    weightParams (pySlice w n) ≤ weightParams w := by
  unfold weightParams
  exact List.Sublist.sum_le_sum ((pySlice_sublist w n).map _) fun a _ => Nat.zero_le a

theorem layerParams_pruneOutConv_le (c : Conv2d) (n : ℤ) :
    layerParams (.conv2d (pruneOutConv c n)) ≤ layerParams (.conv2d c) := by
  simp only [layerParams_conv, pruneOutConv]
  have h1 := weightParams_pySlice_le c.weight n
  rcases c.bias with _ | b
  · simpa using h1
  · simp only [Option.map_some', Option.getD_some]
    have h2 := pySlice_length_le b n
    omega

theorem layerParams_pruneInConv_le (c : Conv2d) (n : ℤ) :
    layerParams (.conv2d (pruneInConv c n)) ≤ layerParams (.conv2d c) := by
  simp only [layerParams_conv, pruneInConv]
  have h1 : weightParams (c.weight.map fun row => pySlice row n) ≤
      weightParams c.weight := by
    unfold weightParams
    rw [List.map_map]
    apply List.sum_le_sum
    intro row _
    exact List.Sublist.sum_le_sum ((pySlice_sublist row n).map _) fun a _ => Nat.zero_le a
  omega

theorem pruneConvs_params_le :
    ∀ (rs : List ℚ) (cs : List Conv2d),
      ((pruneConvs cs rs).map fun c => layerParams (.conv2d c)).sum ≤
        (cs.map fun c => layerParams (.conv2d c)).sum := by
  intro rs
  induction rs with
  | nil =>
    intro cs
    have h : pruneConvs cs [] = cs := by
      cases cs with
      | nil => rfl
      | cons a t => cases t <;> rfl
    rw [h]
  | cons r rs' ih =>
    intro cs
    match cs with
    | [] => exact le_refl _
    | [c] => exact le_refl _
    | c1 :: c2 :: rest =>
      have hred : pruneConvs (c1 :: c2 :: rest) (r :: rs') =
          pruneOutConv c1 (get_num_channels_to_keep c1.out_channels r) ::
            pruneConvs
              (pruneInConv c2 (get_num_channels_to_keep c1.out_channels r) :: rest)
              rs' := rfl
      rw [hred]
      simp only [List.map_cons, List.sum_cons]
      have h1 := layerParams_pruneOutConv_le c1 (get_num_channels_to_keep c1.out_channels r)
      have h2 := ih (pruneInConv c2 (get_num_channels_to_keep c1.out_channels r) :: rest)
      have h3 := layerParams_pruneInConv_le c2 (get_num_channels_to_keep c1.out_channels r)
      simp only [List.map_cons, List.sum_cons] at h2
      omega

/-! ### Attribute preservation through pruning (claim C9 machinery) -/

theorem pruneConvs_nil_ratios (cs : List Conv2d) : pruneConvs cs [] = cs := by
  cases cs with
  | nil => rfl
  | cons a t => cases t <;> rfl

theorem pruneConvs_attrs :
    ∀ (rs : List ℚ) (cs : List Conv2d) (j : ℕ),
      ((pruneConvs cs rs).getD j default).in_channels =
        (cs.getD j default).in_channels ∧
      ((pruneConvs cs rs).getD j default).out_channels =
        (cs.getD j default).out_channels := by
  intro rs
  induction rs with
  | nil =>
    intro cs j
    rw [pruneConvs_nil_ratios]
    exact ⟨rfl, rfl⟩
  | cons r rs' ih =>
    intro cs j
    match cs with
    | [] => exact ⟨rfl, rfl⟩
    | [c] => exact ⟨rfl, rfl⟩
    | c1 :: c2 :: rest =>
      have hred : pruneConvs (c1 :: c2 :: rest) (r :: rs') =
          pruneOutConv c1 (get_num_channels_to_keep c1.out_channels r) ::
            pruneConvs
              (pruneInConv c2 (get_num_channels_to_keep c1.out_channels r) :: rest)
              rs' := rfl
      rw [hred]
      cases j with
      | zero => exact ⟨rfl, rfl⟩
      | succ j =>
        simp only [List.getD_cons_succ]
        have h1 := ih (pruneInConv c2 (get_num_channels_to_keep c1.out_channels r) :: rest) j
        have h2 : ((pruneInConv c2 (get_num_channels_to_keep c1.out_channels r) :: rest).getD j
            default).in_channels = ((c2 :: rest).getD j default).in_channels := by
          cases j <;> rfl
        have h3 : ((pruneInConv c2 (get_num_channels_to_keep c1.out_channels r) :: rest).getD j
            default).out_channels = ((c2 :: rest).getD j default).out_channels := by
          cases j <;> rfl
        exact ⟨h1.1.trans h2, h1.2.trans h3⟩

/-! ### Model-level bookkeeping -/

theorem channel_prune_uniform (m : Model) (r : ℚ) :
    channel_prune m (.uniform r) = .ok ⟨setConvs m.features
      (pruneConvs (convLayers m.features)
        (List.replicate ((convLayers m.features).length - 1) r))⟩ := rfl

theorem channel_prune_perLayer_ok (m : Model) (rs : List ℚ)
    (h : rs.length = (convLayers m.features).length - 1) :
    channel_prune m (.perLayer rs) =
      .ok ⟨setConvs m.features (pruneConvs (convLayers m.features) rs)⟩ := by
  have hd : channel_prune m (.perLayer rs) =
      if rs.length = (convLayers m.features).length - 1 then
        .ok ⟨setConvs m.features (pruneConvs (convLayers m.features) rs)⟩
      else
        .error "prune_ratio list length must be one less than the number of Conv2d layers." :=
    rfl
  rw [hd, if_pos h]

theorem channel_prune_perLayer_error (m : Model) (rs : List ℚ)
    (h : rs.length ≠ (convLayers m.features).length - 1) :
    channel_prune m (.perLayer rs) =
      .error "prune_ratio list length must be one less than the number of Conv2d layers." := by
  have hd : channel_prune m (.perLayer rs) =
      if rs.length = (convLayers m.features).length - 1 then
        .ok ⟨setConvs m.features (pruneConvs (convLayers m.features) rs)⟩
      else
        .error "prune_ratio list length must be one less than the number of Conv2d layers." :=
    rfl
  rw [hd, if_neg h]

theorem convLayers_setConvs_pruneConvs (m : Model) (rs : List ℚ) :
    convLayers (setConvs m.features (pruneConvs (convLayers m.features) rs)) =
      pruneConvs (convLayers m.features) rs :=
  convLayers_setConvs _ _ (by rw [pruneConvs_length])

theorem apply_channel_sorting_features (m : Model) :
    (apply_channel_sorting m).features =
      setConvs m.features (sortConvs (convLayers m.features)) := rfl

theorem convLayers_apply_channel_sorting (m : Model) :
    convLayers (apply_channel_sorting m).features =
      sortConvs (convLayers m.features) :=
  convLayers_setConvs _ _ (by rw [sortConvs_length])

theorem numParams_def (m : Model) :
    numParams m = (m.features.map layerParams).sum := rfl

theorem numParams_eq_convs (m : Model) :
    numParams m = ((convLayers m.features).map fun c => layerParams (.conv2d c)).sum := by
  rw [numParams_def]
  conv_lhs => rw [← setConvs_convLayers m.features]
  exact sum_layerParams_setConvs m.features (convLayers m.features) rfl

/-! ### Remaining helper lemmas -/

theorem sortOutConv_flatW_perm {c : Conv2d} {idx : List ℕ}
    (h : idx.Perm (List.range c.weight.length)) :
    (flatW (sortOutConv c idx).weight).Perm (flatW c.weight) :=
  flatW_perm_of_rows_perm (indexSelect_perm h)

theorem sortInConv_flatW_perm {c : Conv2d} {idx : List ℕ}
    (h : ∀ row ∈ c.weight, idx.Perm (List.range row.length)) :
    (flatW (sortInConv c idx).weight).Perm (flatW c.weight) :=
  flatW_sortInConv_perm h

theorem ChainWf_getD_wf :
    ∀ (cs : List Conv2d), ChainWf cs → ∀ j, j < cs.length →
      Conv2dWf (cs.getD j default) := by
  intro cs
  induction cs with
  | nil =>
    intro _ j hj
    simp at hj
  | cons c t ih =>
    intro h j hj
    cases j with
    | zero =>
      cases t with
      | nil => exact h
      | cons c2 r => exact h.1
    | succ j =>
      cases t with
      | nil => simp at hj
      | cons c2 r =>
        rw [List.getD_cons_succ]
        exact ih h.2.2 j (by simpa using hj)

theorem ChainWf_adj :
    ∀ (cs : List Conv2d), ChainWf cs → ∀ j, j + 1 < cs.length →
      (cs.getD (j + 1) default).in_channels = (cs.getD j default).out_channels := by
  intro cs
  induction cs with
  | nil =>
    intro _ j hj
    simp at hj
  | cons c t ih =>
    intro h j hj
    cases t with
    | nil => simp at hj
    | cons c2 r =>
      cases j with
      | zero => exact h.2.1
      | succ j =>
        rw [List.getD_cons_succ, List.getD_cons_succ]
        exact ih h.2.2 j (by simpa using hj)

theorem headD_length_of_wf {c : Conv2d} (h : Conv2dWf c) (hpos : 0 < c.out_channels) :
    (c.weight.headD []).length = c.in_channels := by
  obtain ⟨hlen, hrows, -⟩ := h
  rcases hw : c.weight with _ | ⟨row0, wt⟩
  · rw [hw] at hlen
    simp at hlen
    omega
  · have hm : row0 ∈ c.weight := by
      rw [hw]
      exact List.mem_cons_self _ _
    rw [List.headD_cons]
    exact hrows row0 hm

theorem channelSlice_eq_map {w : Weight} {i : ℕ} (h : ∀ row ∈ w, i < row.length) :
    channelSlice w i = w.map fun row => row.getD i [] := by
  unfold channelSlice
  induction w with
  | nil => rfl
  | cons row t ih =>
    have hi : i < row.length := h row (List.mem_cons_self row t)
    simp only [List.filterMap_cons, List.map_cons, List.getElem?_eq_getElem hi,
      List.getD_eq_getElem row ([] : Kernel) hi]
    rw [ih fun r hr => h r (List.mem_cons_of_mem row hr)]

theorem importanceSq_getD {w : Weight} {i : ℕ} (h : i < (w.headD []).length) :
    (importanceSq w).getD i 0 = sqNorm3 (channelSlice w i) := by
  unfold importanceSq
  have hr : i < (List.range (w.headD []).length).length := by simpa using h
  rw [getD_map_of_lt _ _ hr 0, List.getD_eq_getElem _ _ hr, List.getElem_range]

theorem sqNorm3_eq_zero {t : List Kernel}
    (h : ∀ k ∈ t, ∀ krow ∈ k, ∀ x ∈ krow, x = (0 : ℚ)) : sqNorm3 t = 0 := by
  unfold sqNorm3
  apply List.sum_eq_zero
  intro y hy
  simp only [List.mem_map] at hy
  obtain ⟨k, hk, rfl⟩ := hy
  apply List.sum_eq_zero
  intro z hz
  simp only [List.mem_map] at hz
  obtain ⟨krow, hkrow, rfl⟩ := hz
  apply List.sum_eq_zero
  intro u hu
  simp only [List.mem_map] at hu
  obtain ⟨x, hx, rfl⟩ := hu
  rw [h k hk krow hkrow x hx]
  ring

/-! ### Claim theorems -/

/-- C7: pruning with prune ratio 0 is the identity: for every model whose
conv shapes do not exceed the layers' declared channel counts (as holds for
every freshly built model and for every already-pruned model, since pruning
only shortens tensors and never touches the attributes), `channel_prune`
with uniform ratio 0.0 returns the model bit-identical: every layer's
channel counts, parameter count, and all weight and bias values are
unchanged. -/
theorem C7_ratio_zero_identity (m : Model) (h : SlackWf (convLayers m.features)) :
    channel_prune m (.uniform 0) = .ok m := by
  rw [channel_prune_uniform,
    pruneConvs_replicate_zero ((convLayers m.features).length - 1) _ h,
    setConvs_convLayers]

theorem C7_witness :
    SlackWf (convLayers exPrunedHalf.features) ∧
    channel_prune exPrunedHalf (.uniform 0) = .ok exPrunedHalf :=
  ⟨by decide, C7_ratio_zero_identity exPrunedHalf (by decide)⟩

/-- C5 (amended): `channel_prune`, when given `prune_ratio` as a list whose
length differs from the number of Conv2d layers minus one (equivalently,
from the number of adjacent prunable layer-pairs), fails fast with the
assert's configuration error; the error is produced before the deep copy
and before any tensor is touched, so the input model is unchanged (the
embedding is a pure function of the input). -/
theorem C5_invalid_ratio_list_fails_fast (m : Model) (rs : List ℚ)
    (h : rs.length ≠ (convLayers m.features).length - 1) :
    channel_prune m (.perLayer rs) =
      .error "prune_ratio list length must be one less than the number of Conv2d layers." :=
  channel_prune_perLayer_error m rs h

theorem C5_witness :
    [(0 : ℚ), 0, 0].length ≠ (convLayers exModel3.features).length - 1 ∧
    channel_prune exModel3 (.perLayer [0, 0, 0]) =
      .error "prune_ratio list length must be one less than the number of Conv2d layers." :=
  ⟨by decide, C5_invalid_ratio_list_fails_fast exModel3 [0, 0, 0] (by decide)⟩

/-- C5 counterexample: the claim asserts failure whenever the list length
differs from (number of prunable layer-pairs − 1).  On a model with three
conv layers there are two adjacent pairs, so the claim demands an error for
a list of length 2 (since 2 ≠ 2 − 1); but the code asserts
`len == n_conv − 1 = 2` and succeeds. -/
theorem C5_counterexample :
    [(0 : ℚ), 0].length ≠ ((convLayers exModel3.features).length - 1) - 1 ∧
    channel_prune exModel3 (.perLayer [0, 0]) =
      .ok ⟨setConvs exModel3.features (pruneConvs (convLayers exModel3.features) [0, 0])⟩ :=
  ⟨by decide, channel_prune_perLayer_ok exModel3 [0, 0] (by decide)⟩

/-- Concrete run used by several theorems: pruning the small example model
with uniform ratio 1/2 keeps 2 of 4 channels and yields exactly
`exPrunedHalf`. -/
theorem exModel_prune_half :
    channel_prune exModel (.uniform (1/2)) = .ok exPrunedHalf := by
  rw [channel_prune_uniform]
  have hn : get_num_channels_to_keep 4 (1/2) = 2 := by
    have h : ((1 : ℚ) - 1/2) * ((4 : ℕ) : ℚ) = ((2 : ℤ) : ℚ) := by norm_num
    unfold get_num_channels_to_keep
    rw [h, pyRound_intCast]
  have hred : pruneConvs (convLayers exModel.features)
      (List.replicate ((convLayers exModel.features).length - 1) (1/2)) =
      [pruneOutConv exConvP (get_num_channels_to_keep 4 (1/2)),
       pruneInConv exConvC (get_num_channels_to_keep 4 (1/2))] := rfl
  rw [hred, hn]
  exact congrArg Except.ok (by decide)

/-- C10: `channel_prune` performs no range validation on prune-ratio values
and never raises for any (uniform) ratio; ratio 1 yields keep count 0 and
silently produces empty zero-channel weight tensors, and a ratio above 1
yields a negative keep count for which the Python slice `[:n_keep]`
silently keeps all but the last `|n_keep|` entries instead of failing. -/
theorem C10_degenerate_ratios_succeed :
    (∀ (m : Model) (r : ℚ), ∃ m', channel_prune m (.uniform r) = .ok m') ∧
    (∀ c : ℕ, get_num_channels_to_keep c 1 = 0) ∧
    channel_prune exModel (.uniform 1) = .ok exPrunedOne ∧
    get_num_channels_to_keep 64 (3/2) = -32 ∧
    pySlice (List.replicate 64 (37 : ℚ)) (-32) = List.replicate 32 37 := by
  refine ⟨fun m r => ⟨_, channel_prune_uniform m r⟩, get_num_channels_to_keep_one,
    ?_, ?_, ?_⟩
  · rw [channel_prune_uniform]
    have hred : pruneConvs (convLayers exModel.features)
        (List.replicate ((convLayers exModel.features).length - 1) 1) =
        [pruneOutConv exConvP (get_num_channels_to_keep 4 1),
         pruneInConv exConvC (get_num_channels_to_keep 4 1)] := rfl
    rw [hred, get_num_channels_to_keep_one 4]
    exact congrArg Except.ok (by decide)
  · have h : ((1 : ℚ) - 3/2) * ((64 : ℕ) : ℚ) = ((-32 : ℤ) : ℚ) := by norm_num
    unfold get_num_channels_to_keep
    rw [h, pyRound_intCast]
  · rw [pySlice_neg (by norm_num)]
    decide

/-- C9: `channel_prune` never updates the `in_channels` / `out_channels`
attributes of any Conv2d: they keep their original values after pruning,
so under any effective pruning they no longer equal the actual dimensions
of the truncated weight tensor — the shape invariant lives in the tensors,
not in the modules' declared metadata (witnessed concretely: the pruned
producer still claims 4 output channels while its weight has 2 rows). -/
theorem C9_attributes_not_updated :
    (∀ (m : Model) (r : ℚ) (m' : Model) (j : ℕ),
      channel_prune m (.uniform r) = .ok m' →
      ((convLayers m'.features).getD j default).in_channels =
        ((convLayers m.features).getD j default).in_channels ∧
      ((convLayers m'.features).getD j default).out_channels =
        ((convLayers m.features).getD j default).out_channels) ∧
    channel_prune exModel (.uniform (1/2)) = .ok exPrunedHalf ∧
    ((convLayers exPrunedHalf.features).getD 0 default).out_channels = 4 ∧
    ((convLayers exPrunedHalf.features).getD 0 default).weight.length = 2 ∧
    ((convLayers exPrunedHalf.features).getD 0 default).weight.length ≠
      ((convLayers exPrunedHalf.features).getD 0 default).out_channels := by
  refine ⟨?_, exModel_prune_half, by decide, by decide, by decide⟩
  intro m r m' j hok
  rw [channel_prune_uniform] at hok
  obtain rfl : _ = m' := Except.ok.inj hok
  rw [convLayers_setConvs_pruneConvs]
  exact pruneConvs_attrs _ _ j

theorem C9_witness :
    channel_prune exModel (.uniform (1/2)) = .ok exPrunedHalf ∧
    (((convLayers exPrunedHalf.features).getD 0 default).in_channels =
      ((convLayers exModel.features).getD 0 default).in_channels ∧
     ((convLayers exPrunedHalf.features).getD 0 default).out_channels =
      ((convLayers exModel.features).getD 0 default).out_channels) :=
  ⟨exModel_prune_half,
    C9_attributes_not_updated.1 exModel (1/2) exPrunedHalf 0 exModel_prune_half⟩

/-- C6: `channel_prune` produces its result as a new model value (the deep
copy; the embedding is pure, so the input is unchanged by construction),
and the copy's tensors are physically truncated rather than masked: the
parameter count never grows, and under effective pruning it strictly
shrinks (concretely: ratio 1/2 on the example model drops the parameter
count from 12 to 6, the producer's weight holding 2 rows instead of 4). -/
theorem C6_pruned_copy_shrinks :
    (∀ (m : Model) (r : ℚ) (m' : Model),
      channel_prune m (.uniform r) = .ok m' → numParams m' ≤ numParams m) ∧
    channel_prune exModel (.uniform (1/2)) = .ok exPrunedHalf ∧
    numParams exPrunedHalf < numParams exModel ∧
    ((convLayers exPrunedHalf.features).getD 0 default).weight.length = 2 ∧
    numParams exPrunedHalf = 6 ∧ numParams exModel = 12 := by
  refine ⟨?_, exModel_prune_half, by decide, by decide, by decide, by decide⟩
  intro m r m' hok
  rw [channel_prune_uniform] at hok
  obtain rfl : _ = m' := Except.ok.inj hok
  rw [numParams_eq_convs, numParams_eq_convs m, convLayers_setConvs_pruneConvs]
  exact pruneConvs_params_le _ _

theorem C6_witness :
    channel_prune exModel (.uniform (1/2)) = .ok exPrunedHalf ∧
    numParams exPrunedHalf ≤ numParams exModel :=
  ⟨exModel_prune_half,
    C6_pruned_copy_shrinks.1 exModel (1/2) exPrunedHalf exModel_prune_half⟩

/-- C1: for every well-formed model and every valid prune-ratio assignment
(per-pair list of ratios in [0,1] of the correct length), after
`channel_prune` runs, every adjacent conv pair (producer, consumer) has the
producer's weight first axis and bias length equal to the consumer's weight
second axis, all equal to the keep count computed for that pair — the
truncation is always performed in tandem with one and the same `k`. -/
theorem C1_tandem_truncation (m : Model) (rs : List ℚ) (m' : Model)
    (hwf : PruneWf (convLayers m.features))
    (hr : ∀ r ∈ rs, 0 ≤ r ∧ r ≤ 1)
    (hlen : rs.length = (convLayers m.features).length - 1)
    (hok : channel_prune m (.perLayer rs) = .ok m' ∨
      (∃ r, rs = List.replicate ((convLayers m.features).length - 1) r ∧
        channel_prune m (.uniform r) = .ok m'))
    (j : ℕ) (hj : j < rs.length) :
    ∃ k : ℕ,
      (k : ℤ) = get_num_channels_to_keep
        ((convLayers m.features).getD j default).out_channels (rs.getD j 0) ∧
      ((convLayers m'.features).getD j default).weight.length = k ∧
      (∀ b, ((convLayers m'.features).getD j default).bias = some b → b.length = k) ∧
      (∀ row ∈ ((convLayers m'.features).getD (j + 1) default).weight,
        row.length = k) := by
  have hok' : m' = ⟨setConvs m.features (pruneConvs (convLayers m.features) rs)⟩ := by
    rcases hok with hok | ⟨r, rfl, hok⟩
    · rw [channel_prune_perLayer_ok m rs hlen] at hok
      exact (Except.ok.inj hok).symm
    · rw [channel_prune_uniform] at hok
      exact (Except.ok.inj hok).symm
  subst hok'
  rw [convLayers_setConvs_pruneConvs]
  have hj1 : j + 1 < (convLayers m.features).length := by omega
  have hrj : rs.getD j 0 ∈ rs := by
    rw [List.getD_eq_getElem rs 0 hj]
    exact List.getElem_mem hj
  refine ⟨(pairKeep (convLayers m.features) rs j).toNat, ?_, ?_⟩
  · show ((pairKeep (convLayers m.features) rs j).toNat : ℤ) =
      pairKeep (convLayers m.features) rs j
    exact Int.toNat_of_nonneg (get_num_channels_to_keep_nonneg (hr _ hrj).2 _)
  · exact pruneConvs_shapes j (convLayers m.features) rs hwf hr hj hj1

theorem C1_witness :
    PruneWf (convLayers exModel.features) ∧
    (∀ r ∈ [(0 : ℚ)], 0 ≤ r ∧ r ≤ 1) ∧
    [(0 : ℚ)].length = (convLayers exModel.features).length - 1 ∧
    (0 : ℕ) < [(0 : ℚ)].length ∧
    ∃ k : ℕ,
      (k : ℤ) = get_num_channels_to_keep
        ((convLayers exModel.features).getD 0 default).out_channels
        ([(0 : ℚ)].getD 0 0) ∧
      ((convLayers (Model.mk (setConvs exModel.features
          (pruneConvs (convLayers exModel.features) [0]))).features).getD 0
          default).weight.length = k ∧
      (∀ b, ((convLayers (Model.mk (setConvs exModel.features
          (pruneConvs (convLayers exModel.features) [0]))).features).getD 0
          default).bias = some b → b.length = k) ∧
      (∀ row ∈ ((convLayers (Model.mk (setConvs exModel.features
          (pruneConvs (convLayers exModel.features) [0]))).features).getD 1
          default).weight, row.length = k) :=
  ⟨by decide, by decide, by decide, by decide,
    C1_tandem_truncation exModel [0] _ (by decide) (by decide) (by decide)
      (Or.inl (channel_prune_perLayer_ok exModel [0] (by decide))) 0 (by decide)⟩

/-- C4: the number of channels kept is the value of
`get_num_channels_to_keep`, i.e. `int(round((1 - prune_ratio) * channels))`;
in particular a layer pair whose producer declares 64 output channels,
pruned with ratio 0.6, keeps `round(0.4 × 64) = 26` channels: the
producer's weight first axis and bias shrink to 26 and the consumer's
weight second axis shrinks to 26. -/
theorem C4_keep_count_scenario (c1 c2 : Conv2d) (m' : Model)
    (h64 : c1.out_channels = 64)
    (hw1 : c1.weight.length = c1.out_channels)
    (hb1 : ∀ b, c1.bias = some b → b.length = c1.out_channels)
    (hrow : ∀ row ∈ c2.weight, row.length = c1.out_channels)
    (hw2 : c2.weight.length = c2.out_channels)
    (hb2 : ∀ b, c2.bias = some b → b.length = c2.out_channels)
    (hok : channel_prune ⟨[.conv2d c1, .relu, .conv2d c2]⟩ (.uniform (3/5)) = .ok m') :
    get_num_channels_to_keep 64 (3/5) = 26 ∧
    ((convLayers m'.features).getD 0 default).weight.length = 26 ∧
    (∀ b, ((convLayers m'.features).getD 0 default).bias = some b → b.length = 26) ∧
    (∀ row ∈ ((convLayers m'.features).getD 1 default).weight, row.length = 26) := by
  have hkeep : get_num_channels_to_keep 64 (3/5) = 26 := by
    unfold get_num_channels_to_keep pyRound
    have harg : ((1 : ℚ) - 3/5) * ((64 : ℕ) : ℚ) = 128/5 := by norm_num
    rw [harg]
    have hfl : ⌊(128/5 : ℚ)⌋ = 25 := by
      norm_num [Int.floor_eq_iff]
    rw [hfl]
    norm_num
  refine ⟨hkeep, ?_⟩
  rw [channel_prune_uniform] at hok
  obtain rfl : _ = m' := Except.ok.inj hok
  rw [convLayers_setConvs_pruneConvs]
  have hwf : PruneWf (convLayers (Model.mk
      [.conv2d c1, .relu, .conv2d c2]).features) :=
    ⟨⟨hw1, hb1⟩, hrow, hw2, hb2⟩
  have hr : ∀ r ∈ List.replicate
      ((convLayers (Model.mk [.conv2d c1, .relu, .conv2d c2]).features).length - 1)
      ((3 : ℚ)/5), 0 ≤ r ∧ r ≤ 1 := by
    intro r hrm
    rw [List.eq_of_mem_replicate hrm]
    constructor <;> norm_num
  have hshapes := pruneConvs_shapes 0
    (convLayers (Model.mk [.conv2d c1, .relu, .conv2d c2]).features)
    (List.replicate 1 ((3 : ℚ)/5)) hwf hr (by show 0 < 1; omega)
    (by show 0 + 1 < 2; omega)
  have hpk : (pairKeep (convLayers (Model.mk
      [.conv2d c1, .relu, .conv2d c2]).features) (List.replicate 1 ((3 : ℚ)/5))
      0).toNat = 26 := by
    show (get_num_channels_to_keep c1.out_channels ((3 : ℚ)/5)).toNat = 26
    rw [h64, hkeep]
    rfl
  rw [hpk] at hshapes
  exact hshapes

theorem C4_witness :
    exConv64P.out_channels = 64 ∧
    exConv64P.weight.length = exConv64P.out_channels ∧
    (∀ b, exConv64P.bias = some b → b.length = exConv64P.out_channels) ∧
    (∀ row ∈ exConv64C.weight, row.length = exConv64P.out_channels) ∧
    exConv64C.weight.length = exConv64C.out_channels ∧
    (∀ b, exConv64C.bias = some b → b.length = exConv64C.out_channels) ∧
    (get_num_channels_to_keep 64 (3/5) = 26 ∧
      ((convLayers (Model.mk (setConvs exModel64.features
        (pruneConvs (convLayers exModel64.features)
          (List.replicate ((convLayers exModel64.features).length - 1)
            ((3 : ℚ)/5))))).features).getD 0 default).weight.length = 26 ∧
      (∀ b, ((convLayers (Model.mk (setConvs exModel64.features
        (pruneConvs (convLayers exModel64.features)
          (List.replicate ((convLayers exModel64.features).length - 1)
            ((3 : ℚ)/5))))).features).getD 0 default).bias = some b →
        b.length = 26) ∧
      (∀ row ∈ ((convLayers (Model.mk (setConvs exModel64.features
        (pruneConvs (convLayers exModel64.features)
          (List.replicate ((convLayers exModel64.features).length - 1)
            ((3 : ℚ)/5))))).features).getD 1 default).weight,
        row.length = 26)) :=
  ⟨by decide, by decide, by decide, by decide, by decide, by decide,
    C4_keep_count_scenario exConv64P exConv64C _ (by decide) (by decide)
      (by decide) (by decide) (by decide) (by decide)
      (channel_prune_uniform exModel64 (3/5))⟩

/-- C8: `get_input_channel_importance` returns exactly one score per input
channel, in channel-axis order; the `i`-th score is the Euclidean
(Frobenius) norm of the sub-tensor obtained by fixing input channel `i` and
ranging over all output channels and kernel positions; every score is
non-negative, and the score of an all-zero channel slice is exactly 0. -/
theorem C8_importance_per_channel (w : Weight) (co ci : ℕ)
    (hco : w.length = co) (hpos : 0 < co)
    (hci : ∀ row ∈ w, row.length = ci) :
    (get_input_channel_importance w).length = ci ∧
    (∀ i, i < ci →
      (get_input_channel_importance w).getD i 0 =
        Real.sqrt (((w.map fun orow =>
          ((orow.getD i []).map fun krow => (krow.map fun x => x * x).sum).sum).sum
          : ℚ) : ℝ)) ∧
    (∀ s ∈ get_input_channel_importance w, 0 ≤ s) ∧
    (∀ i, i < ci → (∀ orow ∈ w, ∀ krow ∈ orow.getD i [], ∀ x ∈ krow, x = 0) →
      (get_input_channel_importance w).getD i 0 = 0) := by
  have hhead : (w.headD []).length = ci := by
    rcases hw : w with _ | ⟨row0, wt⟩
    · rw [hw] at hco
      simp at hco
      omega
    · rw [List.headD_cons]
      apply hci
      rw [hw]
      exact List.mem_cons_self _ _
  have hslice : ∀ i, i < ci → channelSlice w i = w.map fun row => row.getD i [] :=
    fun i hi => channelSlice_eq_map fun row hrow => by rw [hci row hrow]; exact hi
  refine ⟨?_, ?_, get_input_channel_importance_nonneg w, ?_⟩
  · rw [get_input_channel_importance_length, hhead]
  · intro i hi
    rw [get_input_channel_importance_getD (by rwa [hhead]),
      importanceSq_getD (by rwa [hhead]), hslice i hi]
    unfold sqNorm3
    rw [List.map_map]
    rfl
  · intro i hi hzero
    rw [get_input_channel_importance_getD (by rwa [hhead]),
      importanceSq_getD (by rwa [hhead])]
    have h0 : sqNorm3 (channelSlice w i) = 0 := by
      apply sqNorm3_eq_zero
      intro k hk krow hkrow x hx
      rw [hslice i hi] at hk
      simp only [List.mem_map] at hk
      obtain ⟨orow, horow, rfl⟩ := hk
      exact hzero orow horow krow hkrow x hx
    rw [h0]
    simp

theorem C8_witness :
    ([[ [[0]], [[3, 4]] ]] : Weight).length = 1 ∧
    (0 : ℕ) < 1 ∧
    (∀ row ∈ ([[ [[0]], [[3, 4]] ]] : Weight), row.length = 2) ∧
    ((get_input_channel_importance [[ [[0]], [[3, 4]] ]]).length = 2 ∧
      (∀ i, i < 2 →
        (get_input_channel_importance [[ [[0]], [[3, 4]] ]]).getD i 0 =
          Real.sqrt (((([[ [[0]], [[3, 4]] ]] : Weight).map fun orow =>
            ((orow.getD i []).map fun krow => (krow.map fun x => x * x).sum).sum).sum
            : ℚ) : ℝ)) ∧
      (∀ s ∈ get_input_channel_importance [[ [[0]], [[3, 4]] ]], 0 ≤ s) ∧
      (∀ i, i < 2 →
        (∀ orow ∈ ([[ [[0]], [[3, 4]] ]] : Weight),
          ∀ krow ∈ orow.getD i [], ∀ x ∈ krow, x = 0) →
        (get_input_channel_importance [[ [[0]], [[3, 4]] ]]).getD i 0 = 0)) :=
  ⟨by decide, by decide, by decide,
    C8_importance_per_channel [[ [[0]], [[3, 4]] ]] 1 2 (by decide) (by decide)
      (by decide)⟩

theorem sortConvs_getD_zero_of {cs : List Conv2d} (h : 1 < cs.length) :
    (sortConvs cs).getD 0 default = sortOutConv (cs.getD 0 default) (pairIdx cs 0) := by
  match cs, h with
  | c1 :: c2 :: rest, _ => exact sortConvs_getD_zero c1 c2 rest

/-- C3: for every adjacent producer/consumer pair, `apply_channel_sorting`
reorders the producer's output channels (weight first axis and bias, if
present) and the consumer's input channels (weight second axis) by one and
the same permutation `sort_idx`, a bijection over the consumer's
input-channel indices; the reordering is lossless (the multiset of weight
entries of both layers and of the producer's bias is preserved), and any
channel-weighted sum the consumer computes from correspondingly reordered
producer activations is unchanged — only the channel order changes, so the
un-pruned model's composite computation (hence its accuracy) is unaffected. -/
theorem C3_sorting_pairwise_bijection (m : Model) (j : ℕ)
    (hwf : ChainWf (convLayers m.features))
    (hpos : ∀ c ∈ convLayers m.features, 0 < c.out_channels)
    (hj : j + 1 < (convLayers m.features).length) :
    (pairIdx (convLayers m.features) j).Perm
      (List.range ((convLayers m.features).getD (j + 1) default).in_channels) ∧
    (j = 0 → (convLayers (apply_channel_sorting m).features).getD 0 default =
      sortOutConv ((convLayers m.features).getD 0 default)
        (pairIdx (convLayers m.features) 0)) ∧
    (∀ j', j = j' + 1 →
      (convLayers (apply_channel_sorting m).features).getD j default =
        sortOutConv (sortInConv ((convLayers m.features).getD j default)
          (pairIdx (convLayers m.features) j')) (pairIdx (convLayers m.features) j)) ∧
    (j + 2 < (convLayers m.features).length →
      (convLayers (apply_channel_sorting m).features).getD (j + 1) default =
        sortOutConv (sortInConv ((convLayers m.features).getD (j + 1) default)
          (pairIdx (convLayers m.features) j)) (pairIdx (convLayers m.features) (j + 1))) ∧
    (j + 2 = (convLayers m.features).length →
      (convLayers (apply_channel_sorting m).features).getD (j + 1) default =
        sortInConv ((convLayers m.features).getD (j + 1) default)
          (pairIdx (convLayers m.features) j)) ∧
    (flatW ((convLayers (apply_channel_sorting m).features).getD j default).weight).Perm
      (flatW ((convLayers m.features).getD j default).weight) ∧
    (flatW ((convLayers (apply_channel_sorting m).features).getD (j + 1) default).weight).Perm
      (flatW ((convLayers m.features).getD (j + 1) default).weight) ∧
    (∀ b', ((convLayers (apply_channel_sorting m).features).getD j default).bias = some b' →
      ∃ b, ((convLayers m.features).getD j default).bias = some b ∧ b'.Perm b) ∧
    (∀ (row : List ℚ) (a : ℕ → ℚ),
      row.length = ((convLayers m.features).getD (j + 1) default).in_channels →
      channelDot (indexSelect row (pairIdx (convLayers m.features) j))
        (fun t => a ((pairIdx (convLayers m.features) j).getD t 0)) =
        channelDot row a) := by
  set cs := convLayers m.features with hcs
  have hjlt : j < cs.length := by omega
  have hconmem : cs.getD (j + 1) default ∈ cs := by
    rw [List.getD_eq_getElem _ _ hj]
    exact List.getElem_mem hj
  have hprodmem : cs.getD j default ∈ cs := by
    rw [List.getD_eq_getElem _ _ hjlt]
    exact List.getElem_mem hjlt
  have hconwf := ChainWf_getD_wf cs hwf (j + 1) hj
  have hprodwf := ChainWf_getD_wf cs hwf j hjlt
  have hciCon : ((cs.getD (j + 1) default).weight.headD []).length =
      (cs.getD (j + 1) default).in_channels :=
    headD_length_of_wf hconwf (hpos _ hconmem)
  have hadj : (cs.getD (j + 1) default).in_channels =
      (cs.getD j default).out_channels := ChainWf_adj cs hwf j hj
  have hperm : (pairIdx cs j).Perm
      (List.range (cs.getD (j + 1) default).in_channels) := by
    have h := argsortDesc_perm (importanceSq (cs.getD (j + 1) default).weight)
    rwa [importanceSq_length, hciCon] at h
  have hres : convLayers (apply_channel_sorting m).features = sortConvs cs :=
    convLayers_apply_channel_sorting m
  have hpermProdW : (pairIdx cs j).Perm
      (List.range (cs.getD j default).weight.length) := by
    rw [hprodwf.1, ← hadj]
    exact hperm
  have hpermConRows : ∀ row ∈ (cs.getD (j + 1) default).weight,
      (pairIdx cs j).Perm (List.range row.length) := by
    intro row hrow
    rw [hconwf.2.1 row hrow]
    exact hperm
  refine ⟨hperm, ?_, ?_, ?_, ?_, ?_, ?_, ?_, ?_⟩
  · intro h0
    subst h0
    rw [hres]
    exact sortConvs_getD_zero_of (by omega)
  · intro j' hj'
    subst hj'
    rw [hres]
    exact sortConvs_getD_middle j' cs (by omega)
  · intro hlt
    rw [hres]
    exact sortConvs_getD_middle j cs hlt
  · intro heq
    rw [hres]
    exact sortConvs_getD_last j cs heq
  · -- producer weight multiset preserved
    rw [hres]
    cases j with
    | zero =>
      rw [sortConvs_getD_zero_of (by omega)]
      exact sortOutConv_flatW_perm hpermProdW
    | succ j' =>
      rw [sortConvs_getD_middle j' cs (by omega)]
      have hstep1 : (flatW (sortOutConv (sortInConv (cs.getD (j' + 1) default)
          (pairIdx cs j')) (pairIdx cs (j' + 1))).weight).Perm
          (flatW (sortInConv (cs.getD (j' + 1) default) (pairIdx cs j')).weight) := by
        apply sortOutConv_flatW_perm
        have hlen : (sortInConv (cs.getD (j' + 1) default) (pairIdx cs j')).weight.length =
            (cs.getD (j' + 1) default).weight.length := by
          simp [sortInConv]
        rw [hlen]
        exact hpermProdW
      have hpermPrev : ∀ row ∈ (cs.getD (j' + 1) default).weight,
          (pairIdx cs j').Perm (List.range row.length) := by
        intro row hrow
        have h := argsortDesc_perm (importanceSq (cs.getD (j' + 1) default).weight)
        rw [importanceSq_length,
          headD_length_of_wf hprodwf (hpos _ hprodmem)] at h
        rw [hprodwf.2.1 row hrow]
        exact h
      exact hstep1.trans (sortInConv_flatW_perm hpermPrev)
  · -- consumer weight multiset preserved
    rw [hres]
    by_cases hcase : j + 2 < cs.length
    · rw [sortConvs_getD_middle j cs hcase]
      have hnextwf := ChainWf_getD_wf cs hwf (j + 2) hcase
      have hnextmem : cs.getD (j + 2) default ∈ cs := by
        rw [List.getD_eq_getElem _ _ hcase]
        exact List.getElem_mem hcase
      have hstep1 : (pairIdx cs (j + 1)).Perm
          (List.range (sortInConv (cs.getD (j + 1) default)
            (pairIdx cs j)).weight.length) := by
        have h := argsortDesc_perm (importanceSq (cs.getD (j + 2) default).weight)
        rw [importanceSq_length, headD_length_of_wf hnextwf (hpos _ hnextmem),
          ChainWf_adj cs hwf (j + 1) hcase] at h
        have hlen : (sortInConv (cs.getD (j + 1) default)
            (pairIdx cs j)).weight.length = (cs.getD (j + 1) default).weight.length := by
          simp [sortInConv]
        rw [hlen, hconwf.1]
        exact h
      exact (sortOutConv_flatW_perm hstep1).trans (sortInConv_flatW_perm hpermConRows)
    · have heq : j + 2 = cs.length := by omega
      rw [sortConvs_getD_last j cs heq]
      exact sortInConv_flatW_perm hpermConRows
  · -- producer bias multiset preserved
    rw [hres]
    intro b' hb'
    cases j with
    | zero =>
      rw [sortConvs_getD_zero_of (by omega)] at hb'
      simp only [sortOutConv] at hb'
      rcases hbc : (cs.getD 0 default).bias with _ | b
      · rw [hbc] at hb'
        simp at hb'
      · rw [hbc] at hb'
        simp only [Option.map_some'] at hb'
        obtain rfl := Option.some.inj hb'
        refine ⟨b, rfl, indexSelect_perm ?_⟩
        rw [hprodwf.2.2 b hbc, ← hadj]
        exact hperm
    | succ j' =>
      rw [sortConvs_getD_middle j' cs (by omega)] at hb'
      simp only [sortOutConv, sortInConv] at hb'
      rcases hbc : (cs.getD (j' + 1) default).bias with _ | b
      · rw [hbc] at hb'
        simp at hb'
      · rw [hbc] at hb'
        simp only [Option.map_some'] at hb'
        obtain rfl := Option.some.inj hb'
        refine ⟨b, rfl, indexSelect_perm ?_⟩
        rw [hprodwf.2.2 b hbc, ← hadj]
        exact hperm
  · -- channel-weighted sums unchanged under the paired reorder
    intro row a hlen
    apply channelDot_indexSelect
    rw [hlen]
    exact hperm

theorem C3_witness :
    ChainWf (convLayers exModel.features) ∧
    (∀ c ∈ convLayers exModel.features, 0 < c.out_channels) ∧
    (0 + 1 < (convLayers exModel.features).length) ∧
    (pairIdx (convLayers exModel.features) 0).Perm
      (List.range ((convLayers exModel.features).getD 1 default).in_channels) :=
  ⟨by decide, by decide, by decide,
    (C3_sorting_pairwise_bijection exModel 0 (by decide) (by decide) (by decide)).1⟩

/-- C2 (amended): reordering by an arbitrary permutation then truncating
does NOT in general keep the top-k channels (see the counterexample); what
holds is the statement for the permutation the code computes: the first
`n_keep` entries of the descending argsort of the consumer's importance
form a top-`n_keep` channel subset under the Frobenius-norm importance, and
running `apply_channel_sorting` followed by `channel_prune` keeps, in every
consumer layer, exactly the input channels listed in that argsort prefix:
every surviving output row is the restriction of an original output row to
those channels. -/
theorem C2_sorted_prune_keeps_topk (m : Model) (r : ℚ) (m' : Model)
    (hrect : ∀ c ∈ convLayers m.features, RectW c.weight)
    (hr : r ≤ 1)
    (hok : channel_prune (apply_channel_sorting m) (.uniform r) = .ok m')
    (j : ℕ) (hj : j + 1 < (convLayers m.features).length) :
    IsTopK (get_input_channel_importance
        ((convLayers m.features).getD (j + 1) default).weight)
      ((pairIdx (convLayers m.features) j).take
        (pairKeep (convLayers m.features)
          (List.replicate ((convLayers m.features).length - 1) r) j).toNat) ∧
    ∀ row ∈ ((convLayers m'.features).getD (j + 1) default).weight,
      ∃ orow ∈ ((convLayers m.features).getD (j + 1) default).weight,
        row = ((pairIdx (convLayers m.features) j).take
          (pairKeep (convLayers m.features)
            (List.replicate ((convLayers m.features).length - 1) r) j).toNat).map
          fun i => orow.getD i [] := by
  constructor
  · exact argsort_take_IsTopK _ _
  · rw [channel_prune_uniform] at hok
    obtain rfl : _ = m' := Except.ok.inj hok
    rw [convLayers_setConvs_pruneConvs (apply_channel_sorting m),
      convLayers_apply_channel_sorting, sortConvs_length]
    exact composite_consumer_rows j (convLayers m.features)
      (List.replicate ((convLayers m.features).length - 1) r)
      hrect (fun x hx => by rw [List.eq_of_mem_replicate hx]; exact hr)
      (by rw [List.length_replicate]; omega) hj

/-- C2 counterexample: the claim quantifies over ALL permutations π of the
input-channel axis, asserting that reordering by π and truncating to the
first k indices always selects a top-k subset by importance.  The identity
permutation on a two-channel tensor whose channel 0 has importance 0 and
channel 1 has importance 1 keeps channel 0 for k = 1, which is not a top-1
subset. -/
theorem C2_counterexample :
    ¬ (∀ (W : Weight) (idx : List ℕ) (k : ℕ),
        idx.Perm (List.range (W.headD []).length) →
        IsTopK (get_input_channel_importance W) (idx.take k)) := by
  intro h
  obtain ⟨-, -, htop⟩ := h [[ [[0]], [[1]] ]] [0, 1] 1 (by decide)
  have hlen1 : (1 : ℕ) < (get_input_channel_importance [[ [[0]], [[1]] ]]).length := by
    rw [get_input_channel_importance_length]
    decide
  have h1 := htop 0 (by decide) 1 hlen1 (by decide)
  have hg0 : (get_input_channel_importance [[ [[0]], [[1]] ]]).getD 0 0 =
      Real.sqrt (((importanceSq [[ [[0]], [[1]] ]]).getD 0 0 : ℚ) : ℝ) :=
    get_input_channel_importance_getD (by decide)
  have hg1 : (get_input_channel_importance [[ [[0]], [[1]] ]]).getD 1 0 =
      Real.sqrt (((importanceSq [[ [[0]], [[1]] ]]).getD 1 0 : ℚ) : ℝ) :=
    get_input_channel_importance_getD (by decide)
  have hi0 : (importanceSq [[ [[0]], [[1]] ]]).getD 0 0 = 0 := by
    rw [importanceSq_getD (by decide)]
    norm_num [channelSlice, sqNorm3, List.filterMap_cons, List.getElem?_cons_zero,
      List.getElem?_cons_succ]
  have hi1 : (importanceSq [[ [[0]], [[1]] ]]).getD 1 0 = 1 := by
    rw [importanceSq_getD (by decide)]
    norm_num [channelSlice, sqNorm3, List.filterMap_cons, List.getElem?_cons_zero,
      List.getElem?_cons_succ]
  rw [hg0, hg1, hi0, hi1] at h1
  rw [show (((1 : ℚ)) : ℝ) = 1 by norm_num, show (((0 : ℚ)) : ℝ) = 0 by norm_num,
    Real.sqrt_one, Real.sqrt_zero] at h1
  linarith

theorem C2_witness :
    (∀ c ∈ convLayers exModel.features, RectW c.weight) ∧
    ((0 : ℚ) ≤ 1) ∧
    (0 + 1 < (convLayers exModel.features).length) ∧
    IsTopK (get_input_channel_importance
        ((convLayers exModel.features).getD 1 default).weight)
      ((pairIdx (convLayers exModel.features) 0).take
        (pairKeep (convLayers exModel.features)
          (List.replicate ((convLayers exModel.features).length - 1) 0) 0).toNat) :=
  ⟨by decide, by decide, by decide,
    (C2_sorted_prune_keeps_topk exModel 0 _ (by decide) (by decide)
      (channel_prune_uniform (apply_channel_sorting exModel) 0) 0 (by decide)).1⟩
